/-
Verification of the voxel-world core of the repository.

The definitions below are a shallow embedding of the Python sources:
  - api/index.py       (palette, VoxelGrid, rasterize_scene shape branches, RLE emission)
  - api/voxel_utils.py (VoxelGrid, convert_grid_to_chunks)
  - api/pipeline/octree.py    (SparseVoxelOctree: set_voxel / get_voxel / fill_region)
  - api/pipeline/wfc.py       (WFCLayoutGenerator.generate)
  - api/pipeline/super_res.py (SuperResolver.apply_detail_pass / _refine_chunk)

Conventions used throughout:
  - Python dicts are modelled as association lists in insertion order; updating an
    existing key keeps its position, inserting a new key appends at the end.
  - Python integer division and modulus in the sources always use the positive
    divisor CHUNK_SIZE = 32 (or 100, 3, 2), so Python floor division coincides with
    Euclidean division; we use Lean's Int `/` and `%` (ediv / emod), which agree
    with Python for positive divisors.
  - Python floats appear only as the literal constants 0.2, 0.3, 0.35, 0.5 in
    products with an integer that is then truncated by int().  We model these
    multiplications exactly: the IEEE-754 double values of the constants are
    0.3 = 5404319552844595 / 2^54, 0.35 = 3152519739159347 / 2^53,
    0.2 = 3602879701896397 / 2^54, and the helper floatMulTrunc below performs
    the conversion of the integer to a double (round to nearest, ties to even),
    the correctly rounded product with the constant, and the final truncation
    toward zero, exactly as the Python expression int(x * c) does.
-/
import Mathlib

abbrev Coord3 := ℤ × ℤ × ℤ

abbrev Chunk := List ℕ

/-- CHUNK_SIZE = 32 (api/index.py, api/voxel_utils.py, api/pipeline/octree.py). -/
def CHUNK_SIZE : ℕ := 32

/-- The number of voxels in a chunk, CHUNK_SIZE ** 3 = 32768. -/
def CHUNK_VOL : ℕ := CHUNK_SIZE ^ 3

/-- MIN_COORD = -512 (api/index.py line 136, api/voxel_utils.py line 6). -/
def MIN_COORD : ℤ := -512

/-- MAX_COORD = 512 (api/index.py line 137, api/voxel_utils.py line 7). -/
def MAX_COORD : ℤ := 512

/-- The PALETTE list of api/index.py lines 107-111 (21 material names). -/
def PALETTE : List String :=
  ["air", "grass", "stone", "dirt", "water", "wood", "leaves", "sand",
   "brick", "roof", "glass", "plank", "concrete", "asphalt", "road_white",
   "road_yellow", "neon_blue", "neon_pink", "metal", "snow", "lava"]

/-- The PALETTE list of api/common.py lines 4-9 (25 material names), used by the
pipeline modules (octree / wfc / assets / super_res). -/
def PALETTE_COMMON : List String := PALETTE ++
  ["flower_red", "flower_yellow", "flower_purple", "shrub"]

/-- PALETTE_MAP.get(name, dflt): the index of the first occurrence of the name in
the palette, or the default when the name is absent (Python dict built by
enumerate, names are unique). -/
def paletteGet (pal : List String) (name : String) (dflt : ℕ) : ℕ :=
  match pal.indexOf? name with
  | some i => i
  | none => dflt

/-- Python range(a, b) over integers, as the list a, a+1, ..., b-1 (empty when b <= a). -/
def intRange (a b : ℤ) : List ℤ :=
  (List.range (b - a).toNat).map (fun (i : ℕ) => a + (i : ℤ))

/-- Lookup in a Python dict modelled as an association list: first (unique) match. -/
def dictGet {V : Type} (d : List (Coord3 × V)) (k : Coord3) : Option V :=
  match d with
  | [] => none
  | e :: rest => if e.1 = k then some e.2 else dictGet rest k

/-- Assignment d[k] = v in a Python dict modelled as an association list:
replacing an existing key keeps its position, a new key is appended at the end
(Python dicts preserve insertion order). -/
def dictSet {V : Type} (d : List (Coord3 × V)) (k : Coord3) (v : V) : List (Coord3 × V) :=
  match d with
  | [] => [(k, v)]
  | e :: rest => if e.1 = k then (k, v) :: rest else e :: dictSet rest k v

/-- The linear index rx + ry * CHUNK_SIZE + rz * CHUNK_SIZE * CHUNK_SIZE of the
local remainders of a world coordinate, as computed inside set_voxel / get_voxel.
The remainders lie in [0, 32), so the sum is nonnegative; toNat makes it a list
index. -/
def localIndex (x y z : ℤ) : ℕ :=
  (x % (CHUNK_SIZE : ℤ) + y % (CHUNK_SIZE : ℤ) * (CHUNK_SIZE : ℤ)
    + z % (CHUNK_SIZE : ℤ) * (CHUNK_SIZE : ℤ) * (CHUNK_SIZE : ℤ)).toNat

/-- The chunk coordinate (x // 32, y // 32, z // 32) of a world coordinate. -/
def chunkKey (x y z : ℤ) : Coord3 :=
  (x / (CHUNK_SIZE : ℤ), y / (CHUNK_SIZE : ℤ), z / (CHUNK_SIZE : ℤ))

/-- The sparse chunked voxel store of api/index.py lines 141-162 and
api/voxel_utils.py lines 17-38: a dict from chunk coordinate to a dense list of
CHUNK_SIZE ** 3 material ids. -/
structure VoxelGrid where
  chunks : List (Coord3 × Chunk)
deriving DecidableEq

def emptyVoxelGrid : VoxelGrid := ⟨[]⟩

/-- VoxelGrid.get_chunk: returns the chunk at the key, creating it (filled with
the empty id 0) if absent; returns the chunk together with the possibly enlarged
store. -/
def VoxelGrid.get_chunk (g : VoxelGrid) (cx cy cz : ℤ) : Chunk × VoxelGrid :=
  match dictGet g.chunks (cx, cy, cz) with
  | some c => (c, g)
  | none =>
      (List.replicate CHUNK_VOL 0, ⟨dictSet g.chunks (cx, cy, cz) (List.replicate CHUNK_VOL 0)⟩)

/-- VoxelGrid.fill_chunk: self.chunks[(cx, cy, cz)] = [material_idx] * CHUNK_SIZE**3. -/
def VoxelGrid.fill_chunk (g : VoxelGrid) (cx cy cz : ℤ) (m : ℕ) : VoxelGrid :=
  ⟨dictSet g.chunks (cx, cy, cz) (List.replicate CHUNK_VOL m)⟩

/-- VoxelGrid.set_voxel (api/voxel_utils.py lines 30-38, identical in
api/index.py lines 154-162): drops the write unless
MIN_COORD <= c < MAX_COORD on every component, otherwise writes the local linear
index of the (lazily created) owning chunk. -/
def VoxelGrid.set_voxel (g : VoxelGrid) (x y z : ℤ) (m : ℕ) : VoxelGrid :=
  if MIN_COORD ≤ x ∧ x < MAX_COORD ∧ MIN_COORD ≤ y ∧ y < MAX_COORD
      ∧ MIN_COORD ≤ z ∧ z < MAX_COORD then
    let p := g.get_chunk (x / (CHUNK_SIZE : ℤ)) (y / (CHUNK_SIZE : ℤ)) (z / (CHUNK_SIZE : ℤ))
    ⟨dictSet p.2.chunks (chunkKey x y z) (p.1.set (localIndex x y z) m)⟩
  else g

/-- The read operation of the store (SparseVoxelOctree.get_voxel,
api/pipeline/octree.py lines 38-48; spec section 4.1): the empty id 0 for a chunk
not yet instantiated, otherwise the value at the local linear index.  Python
indexes the dense list directly; chunks in every store built by the program have
length CHUNK_VOL, so the getD default 0 is never consulted on those stores. -/
def VoxelGrid.get_voxel (g : VoxelGrid) (x y z : ℤ) : ℕ :=
  match dictGet g.chunks (chunkKey x y z) with
  | none => 0
  | some c => c.getD (localIndex x y z) 0

/-- Well-formedness invariant of every store the program builds: each chunk is a
dense list of exactly CHUNK_SIZE ** 3 material ids. -/
def VoxelGrid.WF (g : VoxelGrid) : Prop :=
  ∀ e ∈ g.chunks, (e.2 : Chunk).length = CHUNK_VOL

/-- One external chunk record {position, rle_data, palette}
(api/index.py lines 100-103, api/voxel_utils.py lines 11-14). -/
structure ChunkRecord where
  position : List ℤ
  rle_data : String
  palette : List String
deriving DecidableEq

/-- The run-building loop of api/index.py lines 425-436 /
api/voxel_utils.py lines 43-53, carrying current_val and current_count. -/
def rleRunsAux (curVal curCount : ℕ) : List ℕ → List (ℕ × ℕ)
  | [] => [(curVal, curCount)]
  | v :: rest =>
      if v = curVal then rleRunsAux curVal (curCount + 1) rest
      else (curVal, curCount) :: rleRunsAux v 1 rest

/-- The run list of a chunk: current_val starts at voxels[0] with count 1, then
the loop consumes voxels[1:].  A real chunk always has CHUNK_SIZE ** 3 > 0
entries; on the empty list (where Python would fault on voxels[0]) we return no
runs. -/
def rleRuns : List ℕ → List (ℕ × ℕ)
  | [] => []
  | v :: rest => rleRunsAux v 1 rest

/-- One "value:count" fragment as formatted by the f-string. -/
def runString (p : ℕ × ℕ) : String := toString p.1 ++ ":" ++ toString p.2

/-- rle_str = ",".join(rle_parts). -/
def rleString (voxels : List ℕ) : String :=
  String.intercalate "," ((rleRuns voxels).map runString)

/-- Auxiliary for relating a run list to the array it encodes: each run's
value repeated its count times, in order (rleRuns always expands back to the
encoded array, runExpand_rleRunsAux below). -/
def runExpand : List (ℕ × ℕ) → List ℕ
  | [] => []
  | p :: rest => List.replicate p.2 p.1 ++ runExpand rest

/-- Python str.split(sep) for a one-character separator, as used by the
decoder of src/tools/verify_pipeline_visual.py (rle.split(',') at line 30 and
part.split(':') at line 34): split at every occurrence of the separator,
keeping empty fragments.  The result is never empty, so the first branch of
the inner match is unreachable. -/
def splitOnChar (sep : Char) : List Char → List (List Char)
  | [] => [[]]
  | c :: rest =>
      match splitOnChar sep rest with
      | [] => [[c]]
      | g :: gs => if c = sep then [] :: g :: gs else (c :: g) :: gs

/-- int(s) for the substrings produced by the decoder's splits: a nonempty
all-digit string parses to its decimal value; anything else raises ValueError,
modelled as none.  (Python int() also accepts signs and surrounding
whitespace, which never occur in RLE data.) -/
def parseNat (l : List Char) : Option ℕ :=
  if l = [] then none
  else if l.all (fun c => c.isDigit) then
    some (l.foldl (fun n c => 10 * n + (c.toNat - 48)) 0)
  else none

/-- One iteration of the decode loop of plot_voxels
(src/tools/verify_pipeline_visual.py lines 32-60) for chunk position
(cx, cy, cz), given the running linear index idx: a part without ':' is
skipped; otherwise it must split into exactly two ints val and count (the
ValueError of the unpacking / of int() is none); for val different from 0 the
world point of every covered linear index idx+k with k < count is emitted with
material val, decoding the index x-fastest (lx = i % 32, ly = i // 32 % 32,
lz = i // (32*32) % 32); idx advances by count in every non-skipped case. -/
def plotDecodePart (cx cy cz : ℤ) (idx : ℕ) (part : List Char) :
    Option (List (Coord3 × ℕ) × ℕ) :=
  if ':' ∈ part then
    match splitOnChar ':' part with
    | [vs, cs] =>
        match parseNat vs, parseNat cs with
        | some val, some count =>
            some
              (if val ≠ 0 then
                  (List.range count).map (fun (k : ℕ) =>
                    ((cx * 32 + (((idx + k) % 32 : ℕ) : ℤ),
                      cy * 32 + ((((idx + k) / 32) % 32 : ℕ) : ℤ),
                      cz * 32 + ((((idx + k) / (32 * 32)) % 32 : ℕ) : ℤ)), val))
                else [],
               idx + count)
        | _, _ => none
    | _ => none
  else some ([], idx)

/-- The decode loop of plot_voxels over the comma-separated parts, from the
running linear index: the (point, material) pairs emitted in program order, or
none for a ValueError on a malformed part. -/
def plotDecodeParts (cx cy cz : ℤ) : List (List Char) → ℕ → Option (List (Coord3 × ℕ))
  | [], _ => some []
  | part :: rest, idx =>
      match plotDecodePart cx cy cz idx part with
      | none => none
      | some (ps, idx2) =>
          match plotDecodeParts cx cy cz rest idx2 with
          | none => none
          | some qs => some (ps ++ qs)

/-- The decode phase of plot_voxels (src/tools/verify_pipeline_visual.py
lines 30-60) for one chunk at position (cx, cy, cz): split rle_data on ',',
then run the per-part loop from idx = 0. -/
def plotDecode (cx cy cz : ℤ) (rle : String) : Option (List (Coord3 × ℕ)) :=
  plotDecodeParts cx cy cz (splitOnChar ',' rle.data) 0

/-- Auxiliary canonical form of the decoder's output on chunk (0, 0, 0):
scan the array from linear index i, emitting each nonzero entry at its local
coordinate (i % 32, i / 32 % 32, i / 1024 % 32). -/
def chunkPoints : List ℕ → ℕ → List (Coord3 × ℕ)
  | [], _ => []
  | v :: rest, i =>
      (if v ≠ 0 then
          [((((i % 32 : ℕ) : ℤ), (((i / 32) % 32 : ℕ) : ℤ),
             (((i / 1024) % 32 : ℕ) : ℤ)), v)]
        else []) ++ chunkPoints rest (i + 1)

/-- The claim's reading of decode(encode(a)) == a for this decoder, which
emits only the nonzero voxels over an implicit air background ("0 is air" in
plot_voxels): the array is reconstructed by giving linear index i the
material of the decoded point at the local coordinate
(i % 32, i / 32 % 32, i / 1024 % 32) of chunk (0, 0, 0), and air 0 where no
point was decoded. -/
def assembleChunk (ps : List (Coord3 × ℕ)) : List ℕ :=
  (List.range CHUNK_VOL).map (fun (i : ℕ) =>
    match dictGet ps (((i % 32 : ℕ) : ℤ), (((i / 32) % 32 : ℕ) : ℤ),
        (((i / 1024) % 32 : ℕ) : ℤ)) with
    | some v => v
    | none => 0)

/-- The chunk-record emission loop shared by api/index.py lines 419-446 and
api/voxel_utils.py convert_grid_to_chunks: one record per chunk present in the
store, in insertion order, each carrying the fixed palette. -/
def convert_grid_to_chunks (chunks : List (Coord3 × Chunk)) (pal : List String) :
    List ChunkRecord :=
  chunks.map (fun e => ⟨[e.1.1, e.1.2.1, e.1.2.2], rleString e.2, pal⟩)

/-- Python range(a, b) over naturals. -/
def natRange (a b : ℕ) : List ℕ := (List.range (b - a)).map (fun (i : ℕ) => a + i)

/-- The sparse store of api/pipeline/octree.py lines 6-48: a chunk dict plus the
min/max world-coordinate bounds touched by set_voxel; none models the initial
float infinities before any write. -/
structure SparseVoxelOctree where
  chunks : List (Coord3 × Chunk)
  min_bounds : Option Coord3
  max_bounds : Option Coord3
deriving DecidableEq

def emptyOctree : SparseVoxelOctree := ⟨[], none, none⟩

/-- SparseVoxelOctree.get_chunk (octree.py lines 18-23): lazily creates the
all-air chunk. -/
def SparseVoxelOctree.get_chunk (t : SparseVoxelOctree) (cx cy cz : ℤ) :
    Chunk × SparseVoxelOctree :=
  match dictGet t.chunks (cx, cy, cz) with
  | some c => (c, t)
  | none =>
      (List.replicate CHUNK_VOL 0,
       ⟨dictSet t.chunks (cx, cy, cz) (List.replicate CHUNK_VOL 0), t.min_bounds, t.max_bounds⟩)

/-- Componentwise min used by the bounds update of octree.py line 35. -/
def coordMin (a b : Coord3) : Coord3 := (min a.1 b.1, min a.2.1 b.2.1, min a.2.2 b.2.2)

/-- Componentwise max used by the bounds update of octree.py line 36. -/
def coordMax (a b : Coord3) : Coord3 := (max a.1 b.1, max a.2.1 b.2.1, max a.2.2 b.2.2)

/-- SparseVoxelOctree.set_voxel (octree.py lines 25-36): no world-bounds check;
writes the local index of the lazily created chunk and widens the min/max
bounds. -/
def SparseVoxelOctree.set_voxel (t : SparseVoxelOctree) (x y z : ℤ) (m : ℕ) :
    SparseVoxelOctree :=
  let p := t.get_chunk (x / (CHUNK_SIZE : ℤ)) (y / (CHUNK_SIZE : ℤ)) (z / (CHUNK_SIZE : ℤ))
  { chunks := dictSet p.2.chunks (chunkKey x y z) (p.1.set (localIndex x y z) m)
    min_bounds := some (match p.2.min_bounds with
      | none => (x, y, z)
      | some b => coordMin b (x, y, z))
    max_bounds := some (match p.2.max_bounds with
      | none => (x, y, z)
      | some b => coordMax b (x, y, z)) }

/-- SparseVoxelOctree.get_voxel (octree.py lines 38-48). -/
def SparseVoxelOctree.get_voxel (t : SparseVoxelOctree) (x y z : ℤ) : ℕ :=
  match dictGet t.chunks (chunkKey x y z) with
  | none => 0
  | some c => c.getD (localIndex x y z) 0

/-- Python slice assignment chunk[i:j] = [m] * (j - i) on a dense chunk
(octree.py line 91), for i <= j <= chunk length. -/
def setSlice (c : Chunk) (i j : ℕ) (m : ℕ) : Chunk :=
  c.take i ++ List.replicate (j - i) m ++ c.drop j

/-- The two inner row loops of SparseVoxelOctree.fill_region (octree.py lines
85-91): for each local z and y of the intersection, assign the x-slice. -/
def fillRows (lsx lex lsy ley lsz lez : ℕ) (m : ℕ) (c : Chunk) : Chunk :=
  (natRange lsz lez).foldl (fun c1 z =>
    (natRange lsy ley).foldl (fun c2 y =>
      setSlice c2 (z * (CHUNK_SIZE * CHUNK_SIZE) + y * CHUNK_SIZE + lsx)
        (z * (CHUNK_SIZE * CHUNK_SIZE) + y * CHUNK_SIZE + lex) m) c1) c

/-- The per-chunk body of SparseVoxelOctree.fill_region (octree.py lines 63-91):
intersect the requested box with the chunk extent, skip empty intersections,
otherwise rewrite the intersecting rows of the lazily created chunk. -/
def fillRegionChunk (sx sy sz ex ey ez : ℤ) (m : ℕ) (t : SparseVoxelOctree)
    (key : Coord3) : SparseVoxelOctree :=
  let csx := key.1 * (CHUNK_SIZE : ℤ)
  let csy := key.2.1 * (CHUNK_SIZE : ℤ)
  let csz := key.2.2 * (CHUNK_SIZE : ℤ)
  let isx := max sx csx
  let isy := max sy csy
  let isz := max sz csz
  let iex := min ex (csx + (CHUNK_SIZE : ℤ))
  let iey := min ey (csy + (CHUNK_SIZE : ℤ))
  let iez := min ez (csz + (CHUNK_SIZE : ℤ))
  if iex ≤ isx ∨ iey ≤ isy ∨ iez ≤ isz then t
  else
    let p := t.get_chunk key.1 key.2.1 key.2.2
    let c' := fillRows (isx - csx).toNat (iex - csx).toNat (isy - csy).toNat
      (iey - csy).toNat (isz - csz).toNat (iez - csz).toNat m p.1
    ⟨dictSet p.2.chunks key c', p.2.min_bounds, p.2.max_bounds⟩

/-- The chunk keys visited by the chunk loops of fill_region / the Box branch of
rasterize_scene: cx outermost, cz innermost, each from min to max inclusive. -/
def chunkKeyList (minCx maxCx minCy maxCy minCz maxCz : ℤ) : List Coord3 :=
  (intRange minCx (maxCx + 1)).flatMap (fun cx =>
    (intRange minCy (maxCy + 1)).flatMap (fun cy =>
      (intRange minCz (maxCz + 1)).map (fun cz => (cx, cy, cz))))

/-- SparseVoxelOctree.fill_region (octree.py lines 50-91). -/
def SparseVoxelOctree.fill_region (t : SparseVoxelOctree) (start size : Coord3)
    (m : ℕ) : SparseVoxelOctree :=
  let sx := start.1
  let sy := start.2.1
  let sz := start.2.2
  let ex := sx + size.1
  let ey := sy + size.2.1
  let ez := sz + size.2.2
  let keys := chunkKeyList (sx / (CHUNK_SIZE : ℤ)) ((ex - 1) / (CHUNK_SIZE : ℤ))
    (sy / (CHUNK_SIZE : ℤ)) ((ey - 1) / (CHUNK_SIZE : ℤ))
    (sz / (CHUNK_SIZE : ℤ)) ((ez - 1) / (CHUNK_SIZE : ℤ))
  keys.foldl (fillRegionChunk sx sy sz ex ey ez m) t

/-- The voxel-by-voxel inner loops of the partial-chunk case of the Box branch
(api/index.py lines 203-210): chunk[z_offset + y_offset + x] = mat. -/
def boxRows (lsx lex lsy ley lsz lez : ℕ) (m : ℕ) (c : Chunk) : Chunk :=
  (natRange lsz lez).foldl (fun c1 z =>
    (natRange lsy ley).foldl (fun c2 y =>
      (natRange lsx lex).foldl (fun c3 x =>
        c3.set (z * (CHUNK_SIZE * CHUNK_SIZE) + y * CHUNK_SIZE + x) m) c2) c1) c

/-- The per-chunk body of the Box branch of rasterize_scene (api/index.py lines
189-210): fully covered chunks are bulk-filled through fill_chunk, partially
covered chunks are written voxel by voxel; both paths mutate chunks directly
without any world-bounds check. -/
def boxChunkStep (sx sy sz ex ey ez : ℤ) (m : ℕ) (g : VoxelGrid) (key : Coord3) :
    VoxelGrid :=
  let csx := key.1 * (CHUNK_SIZE : ℤ)
  let csy := key.2.1 * (CHUNK_SIZE : ℤ)
  let csz := key.2.2 * (CHUNK_SIZE : ℤ)
  let cex := csx + (CHUNK_SIZE : ℤ)
  let cey := csy + (CHUNK_SIZE : ℤ)
  let cez := csz + (CHUNK_SIZE : ℤ)
  let isx := max sx csx
  let isy := max sy csy
  let isz := max sz csz
  let iex := min ex cex
  let iey := min ey cey
  let iez := min ez cez
  if iex ≤ isx ∨ iey ≤ isy ∨ iez ≤ isz then g
  else if isx = csx ∧ iex = cex ∧ isy = csy ∧ iey = cey ∧ isz = csz ∧ iez = cez then
    g.fill_chunk key.1 key.2.1 key.2.2 m
  else
    let p := g.get_chunk key.1 key.2.1 key.2.2
    let c' := boxRows (isx - csx).toNat (iex - csx).toNat (isy - csy).toNat
      (iey - csy).toNat (isz - csz).toNat (iez - csz).toNat m p.1
    ⟨dictSet p.2.chunks key c'⟩

/-- The Box branch of rasterize_scene (api/index.py lines 176-210). -/
def rasterizeBox (g : VoxelGrid) (start size : Coord3) (m : ℕ) : VoxelGrid :=
  let sx := start.1
  let sy := start.2.1
  let sz := start.2.2
  let ex := sx + size.1
  let ey := sy + size.2.1
  let ez := sz + size.2.2
  let keys := chunkKeyList (sx / (CHUNK_SIZE : ℤ)) ((ex - 1) / (CHUNK_SIZE : ℤ))
    (sy / (CHUNK_SIZE : ℤ)) ((ey - 1) / (CHUNK_SIZE : ℤ))
    (sz / (CHUNK_SIZE : ℤ)) ((ez - 1) / (CHUNK_SIZE : ℤ))
  keys.foldl (boxChunkStep sx sy sz ex ey ez m) g

/-- Round n / 2^k to the nearest integer, ties to even (used for k >= 1). -/
def roundDiv2Even (n k : ℕ) : ℕ :=
  let q := n / 2 ^ k
  let r := n % 2 ^ k
  let half := 2 ^ (k - 1)
  if half < r then q + 1 else if r < half then q else if q % 2 = 0 then q else q + 1

/-- The number of binary digits of m in excess of the 53-bit double
significand: the number of halvings until m < 2^53.  Fuel-based structural
recursion (the fuel 1100 used below covers every finite double, whose
magnitude is below 2^1024; beyond that range Python float conversion raises
and no behaviour is modelled). -/
def excess53 : ℕ → ℕ → ℕ
  | 0, _ => 0
  | fuel + 1, m => if m < 2 ^ 53 then 0 else excess53 fuel (m / 2) + 1

/-- Round a natural number to the nearest value with at most 53 significant
bits (the IEEE-754 double significand), ties to even; exact below 2^53. -/
def roundSig53 (n : ℕ) : ℕ :=
  let s := excess53 1100 n
  if s = 0 then n else roundDiv2Even n s * 2 ^ s

/-- float(x): the nearest IEEE-754 double to an integer, as an exact integer
(every double of magnitude at least 2^53 is an integer). -/
def floatOfInt (x : ℤ) : ℤ :=
  if x < 0 then -(roundSig53 x.natAbs : ℤ) else (roundSig53 x.natAbs : ℤ)

/-- int(x * c) for a positive double constant c = M / 2^E: convert x to a
double, form the correctly rounded (nearest, ties to even) product, truncate
toward zero.  This reproduces the Python expression bit for bit throughout the
double range. -/
def floatMulTrunc (M E : ℕ) (x : ℤ) : ℤ :=
  let d := floatOfInt x
  let dn := roundSig53 (d * (M : ℤ)).natAbs
  if d < 0 then -((dn / 2 ^ E : ℕ) : ℤ) else ((dn / 2 ^ E : ℕ) : ℤ)

/-- 0.3 as an IEEE-754 double is M03 / 2^54. -/
def M03 : ℕ := 5404319552844595

/-- 0.35 as an IEEE-754 double is M35 / 2^53. -/
def M35 : ℕ := 3152519739159347

/-- 0.2 as an IEEE-754 double is M02 / 2^54. -/
def M02 : ℕ := 3602879701896397

/-- int(x * 0.5): multiplying a double by 0.5 is exact (an exponent shift), so
this is truncation toward zero of float(x) / 2. -/
def floatHalfTrunc (x : ℤ) : ℤ := Int.tdiv (floatOfInt x) 2

/-- The deterministic position hash (x * 73856093) xor (y * 19349663) xor
(z * 83492791) of api/index.py line 315 and api/pipeline/super_res.py line 50;
Python xor on arbitrary ints is two's-complement xor, which Int.xor implements. -/
def seedHash (x y z : ℤ) : ℤ :=
  Int.xor (Int.xor (x * 73856093) (y * 19349663)) (z * 83492791)

/-- The kind Literal of the Tree model (api/index.py line 78). -/
inductive TreeKind
  | oak
  | pine
deriving DecidableEq

/-- The Tree shape model of api/index.py lines 74-80. -/
structure TreeShape where
  base : Coord3
  height : ℤ
  kind : TreeKind
  material_trunk : String
  material_leaves : String
deriving DecidableEq

/-- A pending set_voxel call: target coordinate and material id. -/
abbrev VoxelWrite := Coord3 × ℕ

/-- One layer group of the pine canopy (api/index.py lines 338-345): for the
current radius r, step_h rows of the disk with squared-radius slack r*r + 1. -/
def pineLayer (bx bz : ℤ) (mat : ℕ) (r : ℤ) (y0 stepH : ℤ) : List VoxelWrite :=
  (intRange y0 (y0 + stepH)).flatMap (fun y =>
    (intRange (bx - r) (bx + r + 1)).flatMap (fun x =>
      (intRange (bz - r) (bz + r + 1)).filterMap (fun z =>
        if (x - bx) ^ 2 + (z - bz) ^ 2 ≤ r * r + 1 then some ((x, y, z), mat) else none)))

/-- The pine canopy loop for r in range(max_r, -1, -1), with step_h = 2 while
r > 0 and 1 at r = 0, advancing current_y by step_h after each radius. -/
def pineWrites (bx bz : ℤ) (mat : ℕ) : ℕ → ℤ → List VoxelWrite
  | 0, y0 => pineLayer bx bz mat 0 y0 1
  | r + 1, y0 => pineLayer bx bz mat ((r : ℤ) + 1) y0 2 ++ pineWrites bx bz mat r (y0 + 2)

/-- The set_voxel calls issued by the Tree branch of rasterize_scene
(api/index.py lines 307-354), in program order: trunk column (with the
4-neighbor widening near the base when h_var > 8), then the pine or oak
canopy. -/
def treeWrites (t : TreeShape) : List VoxelWrite :=
  let bx := t.base.1
  let bY := t.base.2.1
  let bz := t.base.2.2
  let matTrunk := paletteGet PALETTE t.material_trunk (paletteGet PALETTE "wood" 0)
  let matLeaves := paletteGet PALETTE t.material_leaves (paletteGet PALETTE "leaves" 0)
  let seed := seedHash bx bY bz
  let hVar0 := t.height + seed % 3 - 1
  let hVar := if hVar0 < 2 then 2 else hVar0
  let trunkH0 := floatMulTrunc M03 54 hVar
  let trunkH := if trunkH0 < 1 then 1 else trunkH0
  let trunkW := (intRange bY (bY + trunkH)).flatMap (fun y =>
    ((bx, y, bz), matTrunk) ::
      (if 8 < hVar ∧ y < bY + 2 then
        [((bx + 1, y, bz), matTrunk), ((bx - 1, y, bz), matTrunk),
         ((bx, y, bz + 1), matTrunk), ((bx, y, bz - 1), matTrunk)]
      else []))
  let canopyStart := bY + trunkH - 1
  let canopyH := hVar - trunkH + 1
  match t.kind with
  | TreeKind.pine =>
      let maxR := floatMulTrunc M35 53 hVar
      trunkW ++ (if maxR < 0 then [] else pineWrites bx bz matLeaves maxR.toNat canopyStart)
  | TreeKind.oak =>
      let cy := canopyStart + floatHalfTrunc canopyH
      let cr := floatHalfTrunc canopyH + seed % 2
      let rSq := cr * cr
      trunkW ++ (intRange (bx - cr) (bx + cr + 1)).flatMap (fun x =>
        (intRange canopyStart (canopyStart + canopyH + 1)).flatMap (fun y =>
          (intRange (bz - cr) (bz + cr + 1)).filterMap (fun z =>
            if (x - bx) ^ 2 + (y - cy) ^ 2 + (z - bz) ^ 2 ≤ rSq then
              some ((x, y, z), matLeaves)
            else none)))

/-- Apply a list of pending set_voxel calls to a store, in order. -/
def applyWrites (g : VoxelGrid) (ws : List VoxelWrite) : VoxelGrid :=
  ws.foldl (fun g' w => g'.set_voxel w.1.1 w.1.2.1 w.1.2.2 w.2) g

/-- The Tree branch of rasterize_scene as a store transformer. -/
def rasterizeTree (g : VoxelGrid) (t : TreeShape) : VoxelGrid :=
  applyWrites g (treeWrites t)

/-- The integer lattice points visited and accepted by the Sphere branch of
rasterize_scene (api/index.py lines 212-224), for a radius double whose exact
value is the integer r (radius is a float field; every integer of magnitude
below 2^53 is exactly representable).  The double arithmetic of the source is
modelled exactly: r_sq = r * r is the correctly rounded double of the integer
product (an integral double), and each AABB end int(cx - r) first rounds the
int cx to a double, then rounds the exact difference of the two integral
doubles; truncation by int() of an integral double is the identity.  The
membership test (x - cx)**2 + ... <= r_sq compares exact Python ints against
an integral double, which is an exact integer comparison. -/
def spherePoints (c : Coord3) (r : ℤ) : List Coord3 :=
  let rsq := floatOfInt (r * r)
  (intRange (floatOfInt (floatOfInt c.1 - r))
      (floatOfInt (floatOfInt c.1 + r) + 1)).flatMap (fun x =>
    (intRange (floatOfInt (floatOfInt c.2.1 - r))
        (floatOfInt (floatOfInt c.2.1 + r) + 1)).flatMap (fun y =>
      (intRange (floatOfInt (floatOfInt c.2.2 - r))
          (floatOfInt (floatOfInt c.2.2 + r) + 1)).filterMap (fun z =>
        if (x - c.1) ^ 2 + (y - c.2.1) ^ 2 + (z - c.2.2) ^ 2 ≤ rsq then some (x, y, z)
        else none)))

/-- The Sphere branch of rasterize_scene as a store transformer: every accepted
lattice point is written through set_voxel. -/
def rasterizeSphere (g : VoxelGrid) (c : Coord3) (r : ℤ) (m : ℕ) : VoxelGrid :=
  applyWrites g ((spherePoints c r).map (fun p => (p, m)))

/-- The axis Literal of the Cylinder model (api/index.py line 58). -/
inductive AxisKind
  | x
  | y
  | z
deriving DecidableEq

/-- The orientation Literal of the Wedge model (api/index.py line 71). -/
inductive WedgeOrient
  | xn
  | xp
  | zn
  | zp
deriving DecidableEq

/-- The tagged shape union of SceneDescription (api/index.py line 93):
Union over exactly Box, Sphere, Pyramid, Cylinder, Line, Wedge, Tree, House,
with the fields of the respective pydantic models (lines 34-90).  Float-typed
radii are carried on the integer grid used by the geometric claims. -/
inductive Shape
  | box (start size : Coord3) (material : String)
  | sphere (center : Coord3) (radius : ℤ) (material : String)
  | pyramid (base_center : Coord3) (height : ℤ) (material : String)
  | cylinder (start : Coord3) (height : ℤ) (radius : ℤ) (material : String) (axis : AxisKind)
  | line (start stop : Coord3) (width : ℤ) (material : String)
  | wedge (start size : Coord3) (orientation : WedgeOrient) (material : String)
  | tree (t : TreeShape)
  | house (base_center : Coord3) (width depth height roof_height : ℤ)
      (material_wall material_roof : String)
deriving DecidableEq

/-- The type discriminator string of each shape variant (the Literal type tags
of api/index.py lines 35, 41, 47, 53, 61, 68, 75, 83). -/
def Shape.typeTag : Shape → String
  | .box _ _ _ => "box"
  | .sphere _ _ _ => "sphere"
  | .pyramid _ _ _ => "pyramid"
  | .cylinder _ _ _ _ _ => "cylinder"
  | .line _ _ _ _ => "line"
  | .wedge _ _ _ _ => "wedge"
  | .tree _ => "tree"
  | .house _ _ _ _ _ _ _ => "house"

/-- The list of type discriminators admitted by the SceneDescription union
(api/index.py line 93). -/
def sceneShapeTypes : List String :=
  ["box", "sphere", "pyramid", "cylinder", "line", "wedge", "tree", "house"]

/-- The zone tags of api/pipeline/wfc.py lines 5-11. -/
inductive ZoneType
  | empty
  | road
  | residential
  | commercial
  | park
  | water
deriving DecidableEq

/-- A semantic block (api/pipeline/wfc.py lines 13-19): coarse cell plus zone;
rotation is always initialized to 0. -/
structure SemanticBlock where
  x : ℤ
  y : ℤ
  z : ℤ
  zone : ZoneType
  rotation : ℤ
deriving DecidableEq

/-- The random draws consumed by WFCLayoutGenerator.generate, indexed by the
loop iteration: shuffle is the permutation random.shuffle applies to the
neighbor list of iteration i; extendRoad i j is the outcome of
random.random() < 0.4 for the j-th processed neighbor of iteration i;
zonePick i j selects among residential, commercial, park as
random.choices does for that neighbor. -/
structure RandOracle where
  shuffle : ℕ → List Coord3 → List Coord3
  extendRoad : ℕ → ℕ → Bool
  zonePick : ℕ → ℕ → Fin 3

/-- get_neighbors (api/pipeline/wfc.py lines 42-49): the in-grid cells among
the four horizontal neighbors, in the fixed direction order. -/
def wfcNeighbors (W H D : ℕ) (p : Coord3) : List Coord3 :=
  [((1 : ℤ), (0 : ℤ), (0 : ℤ)), (-1, 0, 0), (0, 0, 1), (0, 0, -1)].filterMap (fun d =>
    let n : Coord3 := (p.1 + d.1, p.2.1 + d.2.1, p.2.2 + d.2.2)
    if 0 ≤ n.1 ∧ n.1 < (W : ℤ) ∧ 0 ≤ n.2.1 ∧ n.2.1 < (H : ℤ) ∧ 0 ≤ n.2.2 ∧ n.2.2 < (D : ℤ)
    then some n else none)

/-- The mutable state of the growth loop: open_set, visited, grid. -/
structure WfcState where
  openSet : List Coord3
  visited : List Coord3
  grid : List (Coord3 × ZoneType)

/-- Processing of one (already shuffled) neighbor inside the growth loop
(api/pipeline/wfc.py lines 75-90): skip if visited; with the extension draw,
mark it a road and enqueue it; otherwise assign the drawn zone without
enqueueing. -/
def wfcVisit (o : RandOracle) (i : ℕ) (st : WfcState) (jn : ℕ × Coord3) : WfcState :=
  let n := jn.2
  if n ∈ st.visited then st
  else if o.extendRoad i jn.1 then
    ⟨st.openSet ++ [n], st.visited ++ [n], dictSet st.grid n ZoneType.road⟩
  else
    let zc := match o.zonePick i jn.1 with
      | 0 => ZoneType.residential
      | 1 => ZoneType.commercial
      | _ => ZoneType.park
    ⟨st.openSet, st.visited ++ [n], dictSet st.grid n zc⟩

/-- One iteration of the growth loop (api/pipeline/wfc.py lines 68-90): when
the frontier is empty the loop has broken out (remaining iterations change
nothing); otherwise pop the head, shuffle its neighbors and process each. -/
def wfcStep (o : RandOracle) (W H D : ℕ) (st : WfcState) (i : ℕ) : WfcState :=
  match st.openSet with
  | [] => st
  | c :: rest =>
      let ns := o.shuffle i (wfcNeighbors W H D c)
      ns.enum.foldl (wfcVisit o i) ⟨rest, st.visited, st.grid⟩

/-- WFCLayoutGenerator.generate (api/pipeline/wfc.py lines 51-99): seed a road
at the grid center, run int(width * depth * 0.2) growth iterations, then emit
one semantic block per grid entry. -/
def wfcGenerate (o : RandOracle) (W H D : ℕ) : List SemanticBlock :=
  let cursor : Coord3 := (((W / 2 : ℕ) : ℤ), 0, ((D / 2 : ℕ) : ℤ))
  let st0 : WfcState := ⟨[cursor], [cursor], [(cursor, ZoneType.road)]⟩
  let iters := (floatMulTrunc M02 54 ((W : ℤ) * (D : ℤ))).toNat
  let st := (List.range iters).foldl (wfcStep o W H D) st0
  st.grid.map (fun e => ⟨e.1.1, e.1.2.1, e.1.2.2, e.2, 0⟩)

/-- The body of the voxel scan of SuperResolver._refine_chunk
(api/pipeline/super_res.py lines 33-61) at linear index i: skip air; recover
the local coordinates and the global position, derive the hash noise, and turn
dirt with noise above the threshold and an in-chunk air voxel directly above
into grass.  The comparison (seed % 100) / 100.0 > 0.8 of the source holds
exactly when seed % 100 > 80: k / 100.0 is the double nearest k / 100, 0.8
rounds to the same double as 80 / 100, and the doubles for distinct k are
strictly ordered. -/
def detailStep (cx cy cz : ℤ) (c : Chunk) (i : ℕ) : Chunk :=
  let val := c.getD i 0
  if val = 0 then c
  else
    let rz := i / (CHUNK_SIZE * CHUNK_SIZE)
    let rem := i % (CHUNK_SIZE * CHUNK_SIZE)
    let ry := rem / CHUNK_SIZE
    let rx := rem % CHUNK_SIZE
    let gx := cx * (CHUNK_SIZE : ℤ) + (rx : ℤ)
    let gy := cy * (CHUNK_SIZE : ℤ) + (ry : ℤ)
    let gz := cz * (CHUNK_SIZE : ℤ) + (rz : ℤ)
    let seed := seedHash gx gy gz
    if val = paletteGet PALETTE_COMMON "dirt" 0 ∧ 80 < seed % 100 then
      if ry < CHUNK_SIZE - 1 then
        if c.getD (rx + (ry + 1) * CHUNK_SIZE + rz * (CHUNK_SIZE * CHUNK_SIZE)) 0 = 0 then
          c.set i (paletteGet PALETTE_COMMON "grass" 1)
        else c
      else c
    else c

/-- SuperResolver._refine_chunk (api/pipeline/super_res.py lines 25-61): scan
the chunk's linear indices in order, mutating in place. -/
def refineChunk (cx cy cz : ℤ) (c : Chunk) : Chunk :=
  (List.range c.length).foldl (detailStep cx cy cz) c

/-- One step of the chunk-key loop of SuperResolver.apply_detail_pass: look up
the chunk at the key (present for every snapshotted key, since chunks are
never removed) and refine it in place. -/
def detailPassStep (t' : SparseVoxelOctree) (k : Coord3) : SparseVoxelOctree :=
  match dictGet t'.chunks k with
  | none => t'
  | some c =>
      ⟨dictSet t'.chunks k (refineChunk k.1 k.2.1 k.2.2 c), t'.min_bounds, t'.max_bounds⟩

/-- SuperResolver.apply_detail_pass (api/pipeline/super_res.py lines 13-23):
snapshot the chunk keys, then refine each chunk in place. -/
def applyDetailPass (t : SparseVoxelOctree) : SparseVoxelOctree :=
  (t.chunks.map (fun e => e.1)).foldl detailPassStep t

/-- The last material successfully stored at (x, y, z) by a list of set_voxel
calls: later writes win, and writes failing the world-bounds check of set_voxel
are dropped. -/
def lastWriteAt (ws : List VoxelWrite) (x y z : ℤ) : Option ℕ :=
  match ws with
  | [] => none
  | w :: rest =>
      match lastWriteAt rest x y z with
      | some m => some m
      | none =>
          if w.1 = (x, y, z) ∧ MIN_COORD ≤ x ∧ x < MAX_COORD ∧ MIN_COORD ≤ y
              ∧ y < MAX_COORD ∧ MIN_COORD ≤ z ∧ z < MAX_COORD
          then some w.2 else none

/-- A concrete draw sequence for the layout generator: the shuffle leaves the
neighbor order unchanged and every extension draw succeeds. -/
def alwaysExtendOracle : RandOracle :=
  ⟨fun _ ns => ns, fun _ _ => true, fun _ _ => 0⟩

/-- Well-formedness of the octree store as the program builds it: chunk keys
are unique (a Python dict) and every chunk is dense. -/
def SparseVoxelOctree.WF (t : SparseVoxelOctree) : Prop :=
  (t.chunks.map (fun e => e.1)).Nodup ∧ ∀ e ∈ t.chunks, (e.2 : Chunk).length = CHUNK_VOL

/-- The per-index transformation _refine_chunk applies to a dense chunk, as a
function of the original chunk contents: dirt (id 3) with high hash noise, not
in the chunk's top local layer, with air directly above inside the same chunk,
becomes grass (id 1); every other voxel is unchanged. -/
def detailTarget (cx cy cz : ℤ) (c : Chunk) (i : ℕ) : ℕ :=
  let seed := seedHash (cx * (CHUNK_SIZE : ℤ) + ((i % (CHUNK_SIZE * CHUNK_SIZE) % CHUNK_SIZE : ℕ) : ℤ))
    (cy * (CHUNK_SIZE : ℤ) + ((i % (CHUNK_SIZE * CHUNK_SIZE) / CHUNK_SIZE : ℕ) : ℤ))
    (cz * (CHUNK_SIZE : ℤ) + ((i / (CHUNK_SIZE * CHUNK_SIZE) : ℕ) : ℤ))
  if c.getD i 0 = 3 ∧ 80 < seed % 100 ∧ i % (CHUNK_SIZE * CHUNK_SIZE) / CHUNK_SIZE < CHUNK_SIZE - 1
      ∧ c.getD (i + CHUNK_SIZE) 0 = 0
  then 1 else c.getD i 0

theorem mem_intRange {a b t : ℤ} : t ∈ intRange a b ↔ a ≤ t ∧ t < b := by
  unfold intRange
  simp only [List.mem_map, List.mem_range]
  constructor
  · rintro ⟨i, hi, rfl⟩
    omega
  · intro h
    exact ⟨(t - a).toNat, by omega, by omega⟩

theorem mem_natRange {a b t : ℕ} : t ∈ natRange a b ↔ a ≤ t ∧ t < b := by
  unfold natRange
  simp only [List.mem_map, List.mem_range]
  constructor
  · rintro ⟨i, hi, rfl⟩
    omega
  · intro h
    exact ⟨t - a, by omega, by omega⟩

theorem natRange_succ_right {a b : ℕ} (h : a ≤ b) :
    natRange a (b + 1) = natRange a b ++ [b] := by
  unfold natRange
  have h1 : b + 1 - a = (b - a) + 1 := by omega
  rw [h1, List.range_succ, List.map_append]
  simp only [List.map_cons, List.map_nil]
  have h2 : a + (b - a) = b := by omega
  rw [h2]

theorem length_natRange (a b : ℕ) : (natRange a b).length = b - a := by
  unfold natRange
  simp

theorem dictGet_dictSet_self {V : Type} (d : List (Coord3 × V)) (k : Coord3) (v : V) :
    dictGet (dictSet d k v) k = some v := by
  induction d with
  | nil => simp [dictGet, dictSet]
  | cons e rest ih =>
      by_cases h : e.1 = k
      · simp [dictGet, dictSet, h]
      · simp [dictGet, dictSet, h, ih]

theorem dictGet_dictSet_ne {V : Type} (d : List (Coord3 × V)) (k k' : Coord3) (v : V)
    (h : k' ≠ k) : dictGet (dictSet d k v) k' = dictGet d k' := by
  induction d with
  | nil =>
      have hkk : ¬(k = k') := fun he => h he.symm
      simp [dictGet, dictSet, hkk]
  | cons e rest ih =>
      by_cases he : e.1 = k
      · subst he
        have hkk : ¬(e.1 = k') := fun he' => h he'.symm
        simp [dictGet, dictSet, hkk]
      · by_cases he' : e.1 = k'
        · simp [dictGet, dictSet, he, he', h]
        · simp [dictGet, dictSet, he, he', ih]

theorem mem_dictSet {V : Type} {d : List (Coord3 × V)} {k : Coord3} {v : V} {e : Coord3 × V}
    (h : e ∈ dictSet d k v) : e = (k, v) ∨ e ∈ d := by
  induction d with
  | nil => simpa [dictSet] using h
  | cons e0 rest ih =>
      by_cases h0 : e0.1 = k
      · rw [dictSet, if_pos h0] at h
        rcases List.mem_cons.mp h with h1 | h1
        · exact Or.inl h1
        · exact Or.inr (List.mem_cons_of_mem _ h1)
      · rw [dictSet, if_neg h0] at h
        rcases List.mem_cons.mp h with h1 | h1
        · exact Or.inr (h1 ▸ List.mem_cons_self _ _)
        · rcases ih h1 with h2 | h2
          · exact Or.inl h2
          · exact Or.inr (List.mem_cons_of_mem _ h2)

theorem dictGet_mem {V : Type} {d : List (Coord3 × V)} {k : Coord3} {v : V}
    (h : dictGet d k = some v) : (k, v) ∈ d := by
  induction d with
  | nil => simp [dictGet] at h
  | cons e rest ih =>
      by_cases h0 : e.1 = k
      · rw [dictGet, if_pos h0] at h
        obtain rfl : e.2 = v := by injection h
        subst h0
        exact List.mem_cons_self _ _
      · rw [dictGet, if_neg h0] at h
        exact List.mem_cons_of_mem _ (ih h)

theorem dictGet_absent_eq_append {V : Type} (d : List (Coord3 × V)) (k : Coord3) (v : V)
    (h : dictGet d k = none) : dictSet d k v = d ++ [(k, v)] := by
  induction d with
  | nil => simp [dictSet]
  | cons e rest ih =>
      rw [dictGet] at h
      by_cases h0 : e.1 = k
      · rw [if_pos h0] at h
        exact absurd h (by simp)
      · rw [if_neg h0] at h
        rw [dictSet, if_neg h0, ih h]
        simp

theorem length_dictSet_le {V : Type} (d : List (Coord3 × V)) (k : Coord3) (v : V) :
    (dictSet d k v).length ≤ d.length + 1 := by
  induction d with
  | nil => simp [dictSet]
  | cons e rest ih =>
      by_cases h0 : e.1 = k
      · simp [dictSet, h0]
      · simp only [dictSet, if_neg h0, List.length_cons]
        omega

theorem runExpand_rleRunsAux (rest : List ℕ) :
    ∀ v n, runExpand (rleRunsAux v n rest) = List.replicate n v ++ rest := by
  induction rest with
  | nil => intro v n; simp [rleRunsAux, runExpand]
  | cons w rest ih =>
      intro v n
      by_cases h : w = v
      · subst h
        rw [rleRunsAux, if_pos rfl, ih]
        rw [List.replicate_succ' ]
        simp
      · rw [rleRunsAux, if_neg h, runExpand, ih]
        simp [List.replicate_succ]

theorem rleRunsAux_replicate (k : ℕ) :
    ∀ v n, rleRunsAux v n (List.replicate k v) = [(v, n + k)] := by
  induction k with
  | zero => intro v n; simp [rleRunsAux, List.replicate]
  | succ k ih =>
      intro v n
      rw [List.replicate_succ, rleRunsAux, if_pos rfl, ih]
      have h : n + 1 + k = n + (k + 1) := by omega
      rw [h]

theorem rleRuns_replicate (v : ℕ) (k : ℕ) (h : 0 < k) :
    rleRuns (List.replicate k v) = [(v, k)] := by
  obtain ⟨k', rfl⟩ : ∃ k', k = k' + 1 := ⟨k - 1, by omega⟩
  rw [List.replicate_succ, rleRuns, rleRunsAux_replicate]
  have h1 : 1 + k' = k' + 1 := by omega
  rw [h1]

theorem rleString_replicate (v : ℕ) (k : ℕ) (h : 0 < k) :
    rleString (List.replicate k v) = toString v ++ ":" ++ toString k := by
  rw [rleString, rleRuns_replicate v k h]
  rfl

theorem rleRunsAux_ne_nil (rest : List ℕ) : ∀ v n, rleRunsAux v n rest ≠ [] := by
  induction rest with
  | nil => intro v n; simp [rleRunsAux]
  | cons w rest ih =>
      intro v n
      rw [rleRunsAux]
      by_cases h : w = v
      · rw [if_pos h]
        exact ih v (n + 1)
      · rw [if_neg h]
        simp

theorem rleRuns_ne_nil (a : List ℕ) (h : a ≠ []) : rleRuns a ≠ [] := by
  match a, h with
  | v :: rest, _ =>
      rw [rleRuns]
      exact rleRunsAux_ne_nil rest v 1

theorem runExpand_rleRuns (a : List ℕ) (h : a ≠ []) : runExpand (rleRuns a) = a := by
  match a, h with
  | v :: rest, _ =>
      rw [rleRuns, runExpand_rleRunsAux]
      simp

/-- C9 counterexample: "flower" is not one of the type discriminators admitted
by the SceneDescription shape union, so a scene cannot contain a Flower shape
and no Flower rasterization rule exists. -/
theorem C9_no_flower_tag : "flower" ∉ sceneShapeTypes := by decide

/-- C9 (amended): the scene's tagged shape union covers exactly box, sphere,
pyramid, cylinder, line, wedge, tree and house; a scene cannot contain a
Flower shape. -/
theorem C9_shape_union_closed :
    (∀ s : Shape, s.typeTag ∈ sceneShapeTypes) ∧ "flower" ∉ sceneShapeTypes := by
  constructor
  · intro s
    cases s <;> simp [Shape.typeTag, sceneShapeTypes]
  · decide

theorem localIndex_lt (x y z : ℤ) : localIndex x y z < CHUNK_VOL := by
  unfold localIndex CHUNK_VOL CHUNK_SIZE
  have hx1 : 0 ≤ x % 32 := by omega
  have hx2 : x % 32 < 32 := by omega
  have hy1 : 0 ≤ y % 32 := by omega
  have hy2 : y % 32 < 32 := by omega
  have hz1 : 0 ≤ z % 32 := by omega
  have hz2 : z % 32 < 32 := by omega
  omega

theorem point_eq_of_key_index {x y z a b c : ℤ}
    (hk : chunkKey x y z = chunkKey a b c)
    (hi : localIndex x y z = localIndex a b c) : x = a ∧ y = b ∧ z = c := by
  unfold chunkKey at hk
  unfold localIndex at hi
  simp only [Prod.mk.injEq, CHUNK_SIZE] at hk hi
  push_cast at hk hi
  obtain ⟨h1, h2, h3⟩ := hk
  omega

theorem getD_replicate_zero (n i : ℕ) : (List.replicate n 0).getD i 0 = 0 := by
  simp only [List.getD_eq_getElem?_getD, List.getElem?_replicate]
  split <;> rfl

theorem WF_empty : emptyVoxelGrid.WF := by
  intro e he
  simp [emptyVoxelGrid] at he

theorem get_chunk_fst_length {g : VoxelGrid} (hg : g.WF) (cx cy cz : ℤ) :
    (g.get_chunk cx cy cz).1.length = CHUNK_VOL := by
  rw [VoxelGrid.get_chunk]
  cases hd : dictGet g.chunks (cx, cy, cz) with
  | none => simp
  | some c => exact hg _ (dictGet_mem hd)

theorem get_chunk_snd_dictGet_self (g : VoxelGrid) (cx cy cz : ℤ) :
    dictGet (g.get_chunk cx cy cz).2.chunks (cx, cy, cz) = some (g.get_chunk cx cy cz).1 := by
  rw [VoxelGrid.get_chunk]
  cases hd : dictGet g.chunks (cx, cy, cz) with
  | none => simp [dictGet_dictSet_self]
  | some c => simpa using hd

theorem get_chunk_snd_dictGet_ne (g : VoxelGrid) (cx cy cz : ℤ) (k : Coord3)
    (hk : k ≠ (cx, cy, cz)) :
    dictGet (g.get_chunk cx cy cz).2.chunks k = dictGet g.chunks k := by
  rw [VoxelGrid.get_chunk]
  cases hd : dictGet g.chunks (cx, cy, cz) with
  | none => simp [dictGet_dictSet_ne _ _ _ _ hk]
  | some c => simp

theorem get_chunk_fst_getD_absent {g : VoxelGrid} {cx cy cz : ℤ}
    (hd : dictGet g.chunks (cx, cy, cz) = none) (i : ℕ) :
    (g.get_chunk cx cy cz).1.getD i 0 = 0 := by
  rw [VoxelGrid.get_chunk, hd]
  exact getD_replicate_zero _ _

theorem WF_get_chunk_snd {g : VoxelGrid} (hg : g.WF) (cx cy cz : ℤ) :
    (g.get_chunk cx cy cz).2.WF := by
  rw [VoxelGrid.get_chunk]
  cases hd : dictGet g.chunks (cx, cy, cz) with
  | none =>
      intro e he
      rcases mem_dictSet he with h | h
      · subst h; simp
      · exact hg _ h
  | some c => exact hg

theorem WF_set_voxel {g : VoxelGrid} (hg : g.WF) (x y z : ℤ) (m : ℕ) :
    (g.set_voxel x y z m).WF := by
  rw [VoxelGrid.set_voxel]
  split
  · intro e he
    rcases mem_dictSet he with h | h
    · subst h
      simp only [List.length_set]
      exact get_chunk_fst_length hg _ _ _
    · exact WF_get_chunk_snd hg _ _ _ _ h
  · exact hg

theorem get_voxel_set_voxel {g : VoxelGrid} (hg : g.WF) (x y z a b c : ℤ) (m : ℕ) :
    (g.set_voxel x y z m).get_voxel a b c =
      if (a = x ∧ b = y ∧ c = z)
          ∧ (MIN_COORD ≤ x ∧ x < MAX_COORD ∧ MIN_COORD ≤ y ∧ y < MAX_COORD
             ∧ MIN_COORD ≤ z ∧ z < MAX_COORD)
      then m else g.get_voxel a b c := by
  rw [VoxelGrid.set_voxel]
  by_cases hb : MIN_COORD ≤ x ∧ x < MAX_COORD ∧ MIN_COORD ≤ y ∧ y < MAX_COORD
      ∧ MIN_COORD ≤ z ∧ z < MAX_COORD
  · rw [if_pos hb]
    show (VoxelGrid.get_voxel ⟨_⟩ a b c) = _
    rw [VoxelGrid.get_voxel]
    simp only [chunkKey]
    by_cases hk : ((a / (CHUNK_SIZE : ℤ), b / (CHUNK_SIZE : ℤ), c / (CHUNK_SIZE : ℤ)) : Coord3)
        = (x / (CHUNK_SIZE : ℤ), y / (CHUNK_SIZE : ℤ), z / (CHUNK_SIZE : ℤ))
    · rw [hk, dictGet_dictSet_self]
      by_cases hp : a = x ∧ b = y ∧ c = z
      · obtain ⟨rfl, rfl, rfl⟩ := hp
        rw [if_pos ⟨⟨rfl, rfl, rfl⟩, hb⟩]
        have hlen : (g.get_chunk (a / (CHUNK_SIZE : ℤ)) (b / (CHUNK_SIZE : ℤ))
            (c / (CHUNK_SIZE : ℤ))).1.length = CHUNK_VOL := get_chunk_fst_length hg _ _ _
        simp only [List.getD_eq_getElem?_getD]
        rw [List.getElem?_set_self (by rw [hlen]; exact localIndex_lt a b c)]
        rfl
      · rw [if_neg (fun hcon => hp hcon.1)]
        have hidx : localIndex a b c ≠ localIndex x y z := by
          intro hi
          exact hp (point_eq_of_key_index hk hi)
        simp only [List.getD_eq_getElem?_getD]
        rw [List.getElem?_set_ne (fun hi => hidx hi.symm)]
        rw [VoxelGrid.get_voxel]
        simp only [chunkKey]
        rw [hk]
        cases hd : dictGet g.chunks (x / (CHUNK_SIZE : ℤ), y / (CHUNK_SIZE : ℤ),
            z / (CHUNK_SIZE : ℤ)) with
        | none =>
            have h0 := get_chunk_fst_getD_absent hd (localIndex a b c)
            simp only [List.getD_eq_getElem?_getD] at h0
            rw [h0]
        | some c0 =>
            have he : (g.get_chunk (x / (CHUNK_SIZE : ℤ)) (y / (CHUNK_SIZE : ℤ))
                (z / (CHUNK_SIZE : ℤ))).1 = c0 := by
              rw [VoxelGrid.get_chunk, hd]
            rw [he]
            simp only [List.getD_eq_getElem?_getD]
    · rw [dictGet_dictSet_ne _ _ _ _ hk]
      rw [get_chunk_snd_dictGet_ne _ _ _ _ _ hk]
      rw [if_neg (fun hcon => hk (by obtain ⟨⟨rfl, rfl, rfl⟩, _⟩ := hcon; rfl))]
      rw [VoxelGrid.get_voxel]
      simp only [chunkKey]
  · rw [if_neg hb]
    rw [if_neg (fun hcon => hb hcon.2)]

/-- C3 counterexample: the world bound of set_voxel is half-open, so the
coordinate 512 — inside the symmetric range [-512, 512] claimed by the spec —
is silently dropped: the store is unchanged and the readback returns 0, not the
written material. -/
theorem C3_counterexample :
    emptyVoxelGrid.set_voxel 512 0 0 7 = emptyVoxelGrid
    ∧ (emptyVoxelGrid.set_voxel 512 0 0 7).get_voxel 512 0 0 = 0
    ∧ MIN_COORD ≤ (512 : ℤ) ∧ (512 : ℤ) ≤ MAX_COORD ∧ (7 : ℕ) ≠ 0 :=
  ⟨rfl, rfl, by decide, by decide, by decide⟩

/-- C3 (amended): set_voxel stores the write exactly when every component lies
in the half-open range MIN_COORD <= c < MAX_COORD (i.e. -512 <= c < 512); any
other write — including components equal to +512 — is a no-op that leaves the
store completely unchanged (no chunk created, no voxel modified), and after an
in-range write the readback returns the written material. -/
theorem C3_halfopen_bounds :
    (∀ (g : VoxelGrid) (x y z : ℤ) (m : ℕ),
        ¬(MIN_COORD ≤ x ∧ x < MAX_COORD ∧ MIN_COORD ≤ y ∧ y < MAX_COORD
          ∧ MIN_COORD ≤ z ∧ z < MAX_COORD) →
        g.set_voxel x y z m = g)
    ∧ (∀ (g : VoxelGrid) (x y z : ℤ) (m : ℕ), g.WF →
        (MIN_COORD ≤ x ∧ x < MAX_COORD ∧ MIN_COORD ≤ y ∧ y < MAX_COORD
          ∧ MIN_COORD ≤ z ∧ z < MAX_COORD) →
        (g.set_voxel x y z m).get_voxel x y z = m) := by
  constructor
  · intro g x y z m h
    rw [VoxelGrid.set_voxel, if_neg h]
  · intro g x y z m hg h
    rw [get_voxel_set_voxel hg, if_pos ⟨⟨rfl, rfl, rfl⟩, h⟩]

/-- Witness for C3_halfopen_bounds: the out-of-bounds write of the spec's own
example, set_voxel(1000, 0, 0, M), is a no-op on the empty store, and an
in-range write at (3, 4, 5) reads back. -/
theorem C3_halfopen_bounds_witness :
    emptyVoxelGrid.set_voxel 1000 0 0 7 = emptyVoxelGrid
    ∧ (emptyVoxelGrid.set_voxel 3 4 5 7).get_voxel 3 4 5 = 7 :=
  ⟨C3_halfopen_bounds.1 emptyVoxelGrid 1000 0 0 7 (by decide),
   C3_halfopen_bounds.2 emptyVoxelGrid 3 4 5 7 WF_empty (by decide)⟩

theorem WF_applyWrites {g : VoxelGrid} (hg : g.WF) (ws : List VoxelWrite) :
    (applyWrites g ws).WF := by
  induction ws generalizing g with
  | nil => exact hg
  | cons w rest ih =>
      simp only [applyWrites, List.foldl_cons]
      exact ih (WF_set_voxel hg _ _ _ _)

theorem get_voxel_applyWrites {g : VoxelGrid} (hg : g.WF) (ws : List VoxelWrite)
    (x y z : ℤ) :
    (applyWrites g ws).get_voxel x y z
      = (lastWriteAt ws x y z).getD (g.get_voxel x y z) := by
  induction ws generalizing g with
  | nil => rfl
  | cons w rest ih =>
      obtain ⟨⟨wx, wy, wz⟩, wm⟩ := w
      simp only [applyWrites, List.foldl_cons]
      have hstep := ih (g := g.set_voxel wx wy wz wm) (WF_set_voxel hg _ _ _ _)
      simp only [applyWrites] at hstep
      rw [hstep, lastWriteAt]
      cases hlast : lastWriteAt rest x y z with
      | some mv => rfl
      | none =>
          rw [get_voxel_set_voxel hg]
          by_cases hc : ((wx, wy, wz) : Coord3) = (x, y, z) ∧ MIN_COORD ≤ x ∧ x < MAX_COORD
              ∧ MIN_COORD ≤ y ∧ y < MAX_COORD ∧ MIN_COORD ≤ z ∧ z < MAX_COORD
          · obtain ⟨hw, hbnd⟩ := hc
            obtain ⟨rfl, rfl, rfl⟩ : wx = x ∧ wy = y ∧ wz = z := by
              simpa [Prod.ext_iff] using hw
            rw [if_pos ⟨⟨rfl, rfl, rfl⟩, hbnd⟩, if_pos ⟨rfl, hbnd⟩]
            rfl
          · have hc2 : ¬((x = wx ∧ y = wy ∧ z = wz)
                ∧ (MIN_COORD ≤ wx ∧ wx < MAX_COORD ∧ MIN_COORD ≤ wy ∧ wy < MAX_COORD
                   ∧ MIN_COORD ≤ wz ∧ wz < MAX_COORD)) := by
              rintro ⟨⟨rfl, rfl, rfl⟩, hb2⟩
              exact hc ⟨rfl, hb2⟩
            rw [if_neg hc2]
            rw [if_neg hc]

theorem dictSet_dictSet {V : Type} (d : List (Coord3 × V)) (k : Coord3) (v w : V) :
    dictSet (dictSet d k v) k w = dictSet d k w := by
  induction d with
  | nil => simp [dictSet]
  | cons e rest ih =>
      by_cases h : e.1 = k
      · simp [dictSet, h]
      · simp [dictSet, h, ih]

/-- C6 counterexample: two Tree shapes with identical base (0,0,0), height 8
and kind oak but different trunk materials (wood versus stone) rasterize to
different stores — the bottom trunk voxel at the base holds material 5 (wood)
in one store and 2 (stone) in the other — so identical base, height and kind
alone do not make the voxel sets bit-identical. -/
theorem C6_counterexample :
    rasterizeTree emptyVoxelGrid ⟨(0, 0, 0), 8, TreeKind.oak, "wood", "leaves"⟩
      ≠ rasterizeTree emptyVoxelGrid ⟨(0, 0, 0), 8, TreeKind.oak, "stone", "leaves"⟩ := by
  intro h
  have h1 : (rasterizeTree emptyVoxelGrid
      ⟨(0, 0, 0), 8, TreeKind.oak, "wood", "leaves"⟩).get_voxel 0 0 0 = 5 := by
    rw [rasterizeTree, get_voxel_applyWrites WF_empty]
    decide
  have h2 : (rasterizeTree emptyVoxelGrid
      ⟨(0, 0, 0), 8, TreeKind.oak, "stone", "leaves"⟩).get_voxel 0 0 0 = 2 := by
    rw [rasterizeTree, get_voxel_applyWrites WF_empty]
    decide
  rw [h, h2] at h1
  exact absurd h1 (by decide)

/-- C6 (amended): two Tree shapes with identical base, height, kind and
identical trunk and leaves material parameters, rasterized independently into
two separate empty stores, produce bit-identical voxel sets, because all
variation derives from the deterministic hash
(x * 73856093) xor (y * 19349663) xor (z * 83492791) of the base coordinate
and the rasterization consumes no other state. -/
theorem C6_tree_determinism (t1 t2 : TreeShape)
    (hb : t1.base = t2.base) (hh : t1.height = t2.height) (hk : t1.kind = t2.kind)
    (hmt : t1.material_trunk = t2.material_trunk)
    (hml : t1.material_leaves = t2.material_leaves) :
    rasterizeTree emptyVoxelGrid t1 = rasterizeTree emptyVoxelGrid t2 := by
  obtain ⟨b1, e1, k1, mt1, ml1⟩ := t1
  obtain ⟨b2, e2, k2, mt2, ml2⟩ := t2
  simp only at hb hh hk hmt hml
  cases hb; cases hh; cases hk; cases hmt; cases hml
  rfl

/-- Witness for C6_tree_determinism at a concrete pine tree. -/
theorem C6_tree_determinism_witness :
    rasterizeTree emptyVoxelGrid ⟨(1, 0, 2), 6, TreeKind.pine, "wood", "leaves"⟩
      = rasterizeTree emptyVoxelGrid ⟨(1, 0, 2), 6, TreeKind.pine, "wood", "leaves"⟩ :=
  C6_tree_determinism _ _ rfl rfl rfl rfl rfl

/-- C10: writing the empty id 0 through set_voxel at an in-bounds coordinate
whose chunk is not yet instantiated still creates that chunk — the write is a
touch, not a no-op — and the chunk-record emission then produces a record for
it whose rle_data is the single run "0:32768". -/
theorem C10_air_write_touches (g : VoxelGrid) (x y z : ℤ)
    (hb : MIN_COORD ≤ x ∧ x < MAX_COORD ∧ MIN_COORD ≤ y ∧ y < MAX_COORD
      ∧ MIN_COORD ≤ z ∧ z < MAX_COORD)
    (habs : dictGet g.chunks (chunkKey x y z) = none) :
    (g.set_voxel x y z 0).chunks = g.chunks ++ [(chunkKey x y z, List.replicate CHUNK_VOL 0)]
    ∧ (⟨[x / (CHUNK_SIZE : ℤ), y / (CHUNK_SIZE : ℤ), z / (CHUNK_SIZE : ℤ)],
        "0:32768", PALETTE⟩ : ChunkRecord)
      ∈ convert_grid_to_chunks (g.set_voxel x y z 0).chunks PALETTE := by
  have hchunks : (g.set_voxel x y z 0).chunks
      = g.chunks ++ [(chunkKey x y z, List.replicate CHUNK_VOL 0)] := by
    rw [VoxelGrid.set_voxel, if_pos hb]
    show dictSet (g.get_chunk (x / (CHUNK_SIZE : ℤ)) (y / (CHUNK_SIZE : ℤ))
        (z / (CHUNK_SIZE : ℤ))).2.chunks (chunkKey x y z)
      (List.set (g.get_chunk (x / (CHUNK_SIZE : ℤ)) (y / (CHUNK_SIZE : ℤ))
        (z / (CHUNK_SIZE : ℤ))).1 (localIndex x y z) 0) = _
    rw [VoxelGrid.get_chunk]
    rw [show ((x / (CHUNK_SIZE : ℤ), y / (CHUNK_SIZE : ℤ), z / (CHUNK_SIZE : ℤ)) : Coord3)
      = chunkKey x y z from rfl, habs]
    simp only [List.set_replicate_self]
    rw [dictSet_dictSet]
    exact dictGet_absent_eq_append _ _ _ habs
  refine ⟨hchunks, ?_⟩
  rw [hchunks, convert_grid_to_chunks]
  apply List.mem_map.mpr
  refine ⟨(chunkKey x y z, List.replicate CHUNK_VOL 0), by simp, ?_⟩
  have hrle : rleString (List.replicate CHUNK_VOL 0) = "0:32768" := by
    rw [rleString_replicate 0 CHUNK_VOL (by norm_num [CHUNK_VOL, CHUNK_SIZE])]
    rfl
  show (⟨[x / (CHUNK_SIZE : ℤ), y / (CHUNK_SIZE : ℤ), z / (CHUNK_SIZE : ℤ)],
      rleString (List.replicate CHUNK_VOL 0), PALETTE⟩ : ChunkRecord) = _
  rw [hrle]

/-- Witness for C10_air_write_touches: set_voxel(5, 5, 5, 0) on the empty
store creates chunk (0, 0, 0) and a record with rle_data "0:32768" is
emitted. -/
theorem C10_air_write_touches_witness :
    (emptyVoxelGrid.set_voxel 5 5 5 0).chunks
      = emptyVoxelGrid.chunks ++ [(chunkKey 5 5 5, List.replicate CHUNK_VOL 0)]
    ∧ (⟨[(5 : ℤ) / (CHUNK_SIZE : ℤ), (5 : ℤ) / (CHUNK_SIZE : ℤ), (5 : ℤ) / (CHUNK_SIZE : ℤ)],
        "0:32768", PALETTE⟩ : ChunkRecord)
      ∈ convert_grid_to_chunks (emptyVoxelGrid.set_voxel 5 5 5 0).chunks PALETTE :=
  C10_air_write_touches emptyVoxelGrid 5 5 5 (by decide) rfl

set_option maxRecDepth 100000 in
/-- C1 (evaluating the code at the failing input): the Box branch of
rasterize_scene writes chunks directly, bypassing the set_voxel bounds check:
the scene consisting of Box start (992, 0, 0), size (32, 32, 32) instantiates
chunk (31, 0, 0) in the store and fills it with the material — even though the
chunk's whole extent (world x in [992, 1023]) lies outside the plus-or-minus 512 world
bound, as the read at (1000, 5, 5) shows.  The spec's clipping invariant is
violated by this branch. -/
theorem C1_box_bypasses_bounds :
    (rasterizeBox emptyVoxelGrid (992, 0, 0) (32, 32, 32) 2).chunks
      = [((31, 0, 0), List.replicate CHUNK_VOL 2)]
    ∧ (rasterizeBox emptyVoxelGrid (992, 0, 0) (32, 32, 32) 2).get_voxel 1000 5 5 = 2
    ∧ ¬(MIN_COORD ≤ (1000 : ℤ) ∧ (1000 : ℤ) < MAX_COORD)
    ∧ MAX_COORD ≤ (31 : ℤ) * (CHUNK_SIZE : ℤ) :=
  ⟨rfl, by decide, by decide, by decide⟩

/-- A double that holds an integer of magnitude below 2^53 holds it exactly:
rounding to 53 significant bits is the identity there. -/
theorem floatOfInt_eq_self (n : ℤ) (h : n.natAbs < 2 ^ 53) : floatOfInt n = n := by
  have h0 : excess53 1100 n.natAbs = 0 := by
    rw [show (1100 : ℕ) = 1099 + 1 from rfl, excess53, if_pos h]
  have h1 : roundSig53 n.natAbs = n.natAbs := by
    simp [roundSig53, h0]
  unfold floatOfInt
  rw [h1]
  split <;> omega

/-- Soundness half of the scan, with no hypothesis on the radius: every point
the Sphere branch writes satisfies the squared-distance test against the
rounded double r_sq. -/
theorem spherePoints_mem_imp (c : Coord3) (r : ℤ) (p : Coord3)
    (h : p ∈ spherePoints c r) :
    (p.1 - c.1) ^ 2 + (p.2.1 - c.2.1) ^ 2 + (p.2.2 - c.2.2) ^ 2
      ≤ floatOfInt (r * r) := by
  simp only [spherePoints, List.mem_flatMap, List.mem_filterMap] at h
  obtain ⟨x, hx, y, hy, z, hz, hcond⟩ := h
  by_cases hc : (x - c.1) ^ 2 + (y - c.2.1) ^ 2 + (z - c.2.2) ^ 2 ≤ floatOfInt (r * r)
  · rw [if_pos hc] at hcond
    obtain ⟨rfl, rfl, rfl⟩ : x = p.1 ∧ y = p.2.1 ∧ z = p.2.2 := by
      injection hcond with h
      exact ⟨congrArg Prod.fst h, congrArg (fun q => q.2.1) h, congrArg (fun q => q.2.2) h⟩
    exact hc
  · rw [if_neg hc] at hcond
    exact absurd hcond (by simp)

/-- C8 counterexample: at radius 2^27 + 1 the squared radius exceeds 2^53, the
double r * r rounds down to radius^2 - 1, and the boundary point
center + (r, 0, 0) — which the claim asserts is always included — is excluded
by the program. -/
theorem C8_counterexample :
    ((2 ^ 27 + 1 : ℤ), (0 : ℤ), (0 : ℤ))
      ∉ spherePoints ((0 : ℤ), (0 : ℤ), (0 : ℤ)) (2 ^ 27 + 1) := by
  intro h
  have h2 := spherePoints_mem_imp ((0 : ℤ), (0 : ℤ), (0 : ℤ)) (2 ^ 27 + 1)
    ((2 ^ 27 + 1 : ℤ), (0 : ℤ), (0 : ℤ)) h
  have h3 : floatOfInt ((2 ^ 27 + 1) * (2 ^ 27 + 1)) = 18014398777917440 := by decide
  rw [h3] at h2
  norm_num at h2

set_option maxHeartbeats 2000000 in
/-- C8 (amended): for an integer center and a nonnegative integer radius whose
square stays below 2^53 (and center components small enough that every float
in the branch is exact), the Sphere branch fills exactly the integer lattice
points whose squared distance to the center is at most radius squared
(inclusive boundary); in particular center + (r, 0, 0) is included and
center + (r+1, 0, 0) is excluded. -/
theorem C8_sphere_membership (c : Coord3) (r : ℤ) (hr : 0 ≤ r)
    (hr2 : r * r < 2 ^ 53)
    (hcx : c.1.natAbs + r.natAbs < 2 ^ 53)
    (hcy : c.2.1.natAbs + r.natAbs < 2 ^ 53)
    (hcz : c.2.2.natAbs + r.natAbs < 2 ^ 53) :
    (∀ p : Coord3, p ∈ spherePoints c r ↔
      (p.1 - c.1) ^ 2 + (p.2.1 - c.2.1) ^ 2 + (p.2.2 - c.2.2) ^ 2 ≤ r * r)
    ∧ ((c.1 + r, c.2.1, c.2.2) ∈ spherePoints c r)
    ∧ ((c.1 + r + 1, c.2.1, c.2.2) ∉ spherePoints c r) := by
  have hrrabs : ((r * r).natAbs : ℤ) = r * r := Int.natAbs_of_nonneg (mul_self_nonneg r)
  have hrr : floatOfInt (r * r) = r * r := floatOfInt_eq_self _ (by
    have h2 : ((r * r).natAbs : ℤ) < (2 : ℤ) ^ 53 := by rw [hrrabs]; exact hr2
    exact_mod_cast h2)
  have hfc1 : floatOfInt c.1 = c.1 :=
    floatOfInt_eq_self _ (lt_of_le_of_lt (Nat.le_add_right _ _) hcx)
  have hfc2 : floatOfInt c.2.1 = c.2.1 :=
    floatOfInt_eq_self _ (lt_of_le_of_lt (Nat.le_add_right _ _) hcy)
  have hfc3 : floatOfInt c.2.2 = c.2.2 :=
    floatOfInt_eq_self _ (lt_of_le_of_lt (Nat.le_add_right _ _) hcz)
  have hfm1 : floatOfInt (c.1 - r) = c.1 - r :=
    floatOfInt_eq_self _ (lt_of_le_of_lt (by omega) hcx)
  have hfp1 : floatOfInt (c.1 + r) = c.1 + r :=
    floatOfInt_eq_self _ (lt_of_le_of_lt (by omega) hcx)
  have hfm2 : floatOfInt (c.2.1 - r) = c.2.1 - r :=
    floatOfInt_eq_self _ (lt_of_le_of_lt (by omega) hcy)
  have hfp2 : floatOfInt (c.2.1 + r) = c.2.1 + r :=
    floatOfInt_eq_self _ (lt_of_le_of_lt (by omega) hcy)
  have hfm3 : floatOfInt (c.2.2 - r) = c.2.2 - r :=
    floatOfInt_eq_self _ (lt_of_le_of_lt (by omega) hcz)
  have hfp3 : floatOfInt (c.2.2 + r) = c.2.2 + r :=
    floatOfInt_eq_self _ (lt_of_le_of_lt (by omega) hcz)
  have hsp : spherePoints c r =
      (intRange (c.1 - r) (c.1 + r + 1)).flatMap (fun x =>
        (intRange (c.2.1 - r) (c.2.1 + r + 1)).flatMap (fun y =>
          (intRange (c.2.2 - r) (c.2.2 + r + 1)).filterMap (fun z =>
            if (x - c.1) ^ 2 + (y - c.2.1) ^ 2 + (z - c.2.2) ^ 2 ≤ r * r
            then some (x, y, z) else none))) := by
    simp only [spherePoints, hfc1, hfc2, hfc3, hfm1, hfp1, hfm2, hfp2, hfm3, hfp3, hrr]
  have hmem : ∀ p : Coord3, p ∈ spherePoints c r ↔
      (p.1 - c.1) ^ 2 + (p.2.1 - c.2.1) ^ 2 + (p.2.2 - c.2.2) ^ 2 ≤ r * r := by
    rintro ⟨px, py, pz⟩
    rw [hsp]
    simp only [List.mem_flatMap, List.mem_filterMap, mem_intRange]
    constructor
    · rintro ⟨x, hx, y, hy, z, hz, hcond⟩
      by_cases hc : (x - c.1) ^ 2 + (y - c.2.1) ^ 2 + (z - c.2.2) ^ 2 ≤ r * r
      · rw [if_pos hc] at hcond
        obtain ⟨rfl, rfl, rfl⟩ : x = px ∧ y = py ∧ z = pz := by
          injection hcond with h
          exact ⟨congrArg Prod.fst h, congrArg (fun q => q.2.1) h, congrArg (fun q => q.2.2) h⟩
        exact hc
      · rw [if_neg hc] at hcond
        exact absurd hcond (by simp)
    · intro h
      have hx2 : (px - c.1) ^ 2 ≤ r * r := by nlinarith [sq_nonneg (py - c.2.1), sq_nonneg (pz - c.2.2)]
      have hy2 : (py - c.2.1) ^ 2 ≤ r * r := by nlinarith [sq_nonneg (px - c.1), sq_nonneg (pz - c.2.2)]
      have hz2 : (pz - c.2.2) ^ 2 ≤ r * r := by nlinarith [sq_nonneg (px - c.1), sq_nonneg (py - c.2.1)]
      have hxb : -r ≤ px - c.1 ∧ px - c.1 ≤ r := by
        constructor <;> nlinarith [sq_nonneg (px - c.1 - r), sq_nonneg (px - c.1 + r)]
      have hyb : -r ≤ py - c.2.1 ∧ py - c.2.1 ≤ r := by
        constructor <;> nlinarith [sq_nonneg (py - c.2.1 - r), sq_nonneg (py - c.2.1 + r)]
      have hzb : -r ≤ pz - c.2.2 ∧ pz - c.2.2 ≤ r := by
        constructor <;> nlinarith [sq_nonneg (pz - c.2.2 - r), sq_nonneg (pz - c.2.2 + r)]
      refine ⟨px, by omega, py, by omega, pz, by omega, ?_⟩
      rw [if_pos h]
  refine ⟨hmem, ?_, ?_⟩
  · apply (hmem (c.1 + r, c.2.1, c.2.2)).mpr
    have h1 : c.1 + r - c.1 = r := by ring
    simp only [h1, sub_self]
    nlinarith []
  · intro hin
    have h2 := (hmem (c.1 + r + 1, c.2.1, c.2.2)).mp hin
    have h1 : c.1 + r + 1 - c.1 = r + 1 := by ring
    rw [h1, sub_self, sub_self] at h2
    nlinarith [h2]

/-- Witness for C8_sphere_membership: radius 2 at the origin (all float
exactness bounds hold there), with the boundary point (2, 0, 0) included. -/
theorem C8_sphere_membership_witness :
    ((0 : ℤ) ≤ 2) ∧ ((2 : ℤ) * 2 < 2 ^ 53)
      ∧ (((0 : ℤ) + 2, (0 : ℤ), (0 : ℤ)) ∈ spherePoints (0, 0, 0) 2) :=
  ⟨by decide, by decide,
    (C8_sphere_membership (0, 0, 0) 2 (by decide) (by decide) (by decide) (by decide)
      (by decide)).2.1⟩

theorem wfcNeighbors_length_le (W H D : ℕ) (p : Coord3) :
    (wfcNeighbors W H D p).length ≤ 4 := by
  unfold wfcNeighbors
  exact Nat.le_trans (List.length_filterMap_le _ _) (by simp)

theorem gridlen_wfcVisit (o : RandOracle) (i : ℕ) (st : WfcState) (jn : ℕ × Coord3) :
    (wfcVisit o i st jn).grid.length ≤ st.grid.length + 1 := by
  simp only [wfcVisit]
  by_cases h1 : jn.2 ∈ st.visited
  · simp only [if_pos h1]
    omega
  · simp only [if_neg h1]
    by_cases h2 : o.extendRoad i jn.1
    · simp only [if_pos h2]
      exact length_dictSet_le _ _ _
    · simp only [if_neg h2]
      exact length_dictSet_le _ _ _

theorem gridlen_visitFold (o : RandOracle) (i : ℕ) :
    ∀ (l : List (ℕ × Coord3)) (st : WfcState),
      (l.foldl (wfcVisit o i) st).grid.length ≤ st.grid.length + l.length := by
  intro l
  induction l with
  | nil => intro st; simp
  | cons jn rest ih =>
      intro st
      rw [List.foldl_cons]
      calc (rest.foldl (wfcVisit o i) (wfcVisit o i st jn)).grid.length
          ≤ (wfcVisit o i st jn).grid.length + rest.length := ih _
        _ ≤ st.grid.length + 1 + rest.length := by
            have := gridlen_wfcVisit o i st jn
            omega
        _ = st.grid.length + (jn :: rest).length := by simp; omega

theorem gridlen_wfcStep (o : RandOracle) (W H D : ℕ)
    (hsh : ∀ i l, (o.shuffle i l).Perm l) (st : WfcState) (i : ℕ) :
    (wfcStep o W H D st i).grid.length ≤ st.grid.length + 4 := by
  unfold wfcStep
  cases hos : st.openSet with
  | nil =>
      show st.grid.length ≤ st.grid.length + 4
      omega
  | cons c rest =>
      have hlen : (o.shuffle i (wfcNeighbors W H D c)).enum.length ≤ 4 := by
        rw [List.enum_length]
        rw [(hsh i (wfcNeighbors W H D c)).length_eq]
        exact wfcNeighbors_length_le W H D c
      calc ((o.shuffle i (wfcNeighbors W H D c)).enum.foldl (wfcVisit o i)
            ⟨rest, st.visited, st.grid⟩).grid.length
          ≤ st.grid.length + (o.shuffle i (wfcNeighbors W H D c)).enum.length :=
            gridlen_visitFold o i _ _
        _ ≤ st.grid.length + 4 := by omega

theorem gridlen_stepFold (o : RandOracle) (W H D : ℕ)
    (hsh : ∀ i l, (o.shuffle i l).Perm l) :
    ∀ (n : ℕ) (st : WfcState),
      ((List.range n).foldl (wfcStep o W H D) st).grid.length ≤ st.grid.length + 4 * n := by
  intro n
  induction n with
  | zero => intro st; simp
  | succ n ih =>
      intro st
      rw [List.range_succ, List.foldl_append, List.foldl_cons, List.foldl_nil]
      calc (wfcStep o W H D ((List.range n).foldl (wfcStep o W H D) st) n).grid.length
          ≤ ((List.range n).foldl (wfcStep o W H D) st).grid.length + 4 :=
            gridlen_wfcStep o W H D hsh _ _
        _ ≤ st.grid.length + 4 * n + 4 := by have := ih st; omega
        _ = st.grid.length + 4 * (n + 1) := by ring

/-- C5 counterexample: on the 3 x 1 x 3 grid, with a draw sequence in which
the shuffle is the identity and every extension draw succeeds, the single
growth iteration (int(3 * 3 * 0.2) = 1) visits the seed's four horizontal
neighbors, so the generator returns 5 semantic blocks — more than
floor(0.2 * W * D) + 1 = 2 — refuting the claimed bound. -/
theorem C5_counterexample :
    (wfcGenerate alwaysExtendOracle 3 1 3).length = 5
    ∧ ¬((wfcGenerate alwaysExtendOracle 3 1 3).length
        ≤ (floatMulTrunc M02 54 ((3 : ℤ) * 3)).toNat + 1) := by
  constructor
  · decide
  · decide

/-- C5 (amended): for every grid size and every sequence of random draws (the
shuffle being a permutation, as random.shuffle guarantees), the city layout
generator returns at most 4 * int(0.2 * W * D) + 1 semantic blocks: the loop
runs int(W * D * 0.2) iterations and each iteration visits at most the four
horizontal neighbors of the popped cell, plus the initial seed cell. -/
theorem C5_layout_coverage (o : RandOracle) (W H D : ℕ)
    (hsh : ∀ i l, (o.shuffle i l).Perm l) :
    (wfcGenerate o W H D).length
      ≤ 4 * (floatMulTrunc M02 54 ((W : ℤ) * (D : ℤ))).toNat + 1 := by
  unfold wfcGenerate
  rw [List.length_map]
  have h := gridlen_stepFold o W H D hsh
    ((floatMulTrunc M02 54 ((W : ℤ) * (D : ℤ))).toNat)
    ⟨[(((W / 2 : ℕ) : ℤ), 0, ((D / 2 : ℕ) : ℤ))],
     [(((W / 2 : ℕ) : ℤ), 0, ((D / 2 : ℕ) : ℤ))],
     [((((W / 2 : ℕ) : ℤ), 0, ((D / 2 : ℕ) : ℤ)), ZoneType.road)]⟩
  simp only [List.length_cons, List.length_nil] at h
  omega

/-- Witness for C5_layout_coverage with the identity shuffle on a 2 x 2 x 2
grid. -/
theorem C5_layout_coverage_witness :
    (wfcGenerate alwaysExtendOracle 2 2 2).length
      ≤ 4 * (floatMulTrunc M02 54 ((2 : ℤ) * 2)).toNat + 1 :=
  C5_layout_coverage alwaysExtendOracle 2 2 2 (fun _ l => List.Perm.refl l)

theorem getD_set_self {l : List ℕ} {i : ℕ} (h : i < l.length) (m : ℕ) :
    (l.set i m).getD i 0 = m := by
  simp only [List.getD_eq_getElem?_getD]
  rw [List.getElem?_set_self h]
  rfl

theorem getD_set_ne {l : List ℕ} {i j : ℕ} (h : i ≠ j) (m : ℕ) :
    (l.set i m).getD j 0 = l.getD j 0 := by
  simp only [List.getD_eq_getElem?_getD]
  rw [List.getElem?_set_ne h]

theorem detailStep_length (cx cy cz : ℤ) (c : Chunk) (i : ℕ) :
    (detailStep cx cy cz c i).length = c.length := by
  simp only [detailStep]
  split
  · rfl
  · split
    · split
      · split
        · simp
        · rfl
      · rfl
    · rfl

theorem detailStep_getD_ne (cx cy cz : ℤ) (c : Chunk) (i j : ℕ) (h : i ≠ j) :
    (detailStep cx cy cz c i).getD j 0 = c.getD j 0 := by
  simp only [detailStep]
  split
  · rfl
  · split
    · split
      · split
        · exact getD_set_ne h _
        · rfl
      · rfl
    · rfl

theorem detailStep_getD_self (cx cy cz : ℤ) (c c0 : Chunk) (k : ℕ)
    (hlen : c.length = c0.length)
    (hagree : ∀ j, k ≤ j → c.getD j 0 = c0.getD j 0)
    (hk : k < c0.length) :
    (detailStep cx cy cz c k).getD k 0 = detailTarget cx cy cz c0 k := by
  have hck : c.getD k 0 = c0.getD k 0 := hagree k le_rfl
  have hcabove : c.getD (k + CHUNK_SIZE) 0 = c0.getD (k + CHUNK_SIZE) 0 :=
    hagree _ (by omega)
  have hidx : k % (CHUNK_SIZE * CHUNK_SIZE) % CHUNK_SIZE
      + (k % (CHUNK_SIZE * CHUNK_SIZE) / CHUNK_SIZE + 1) * CHUNK_SIZE
      + k / (CHUNK_SIZE * CHUNK_SIZE) * (CHUNK_SIZE * CHUNK_SIZE) = k + CHUNK_SIZE := by
    simp only [CHUNK_SIZE]
    omega
  have hdirt : paletteGet PALETTE_COMMON "dirt" 0 = 3 := by decide
  have hgrass : paletteGet PALETTE_COMMON "grass" 1 = 1 := by decide
  simp only [detailStep, detailTarget, hidx, hdirt, hgrass, hck, hcabove]
  by_cases h0 : c0.getD k 0 = 0
  · rw [if_pos h0]
    rw [hck]
    rw [if_neg (by rw [h0]; simp)]
  · rw [if_neg h0]
    by_cases h3 : c0.getD k 0 = 3 ∧ 80 < seedHash (cx * (CHUNK_SIZE : ℤ) + ((k % (CHUNK_SIZE * CHUNK_SIZE) % CHUNK_SIZE : ℕ) : ℤ))
        (cy * (CHUNK_SIZE : ℤ) + ((k % (CHUNK_SIZE * CHUNK_SIZE) / CHUNK_SIZE : ℕ) : ℤ))
        (cz * (CHUNK_SIZE : ℤ) + ((k / (CHUNK_SIZE * CHUNK_SIZE) : ℕ) : ℤ)) % 100
    · rw [if_pos h3]
      by_cases hry : k % (CHUNK_SIZE * CHUNK_SIZE) / CHUNK_SIZE < CHUNK_SIZE - 1
      · rw [if_pos hry]
        by_cases hab : c0.getD (k + CHUNK_SIZE) 0 = 0
        · rw [if_pos hab, if_pos ⟨h3.1, h3.2, hry, hab⟩]
          exact getD_set_self (by omega) _
        · rw [if_neg hab, if_neg (by rintro ⟨_, _, _, hc⟩; exact hab hc)]
          exact hck
      · rw [if_neg hry, if_neg (by rintro ⟨_, _, hc, _⟩; exact hry hc)]
        exact hck
    · rw [if_neg h3, if_neg (by rintro ⟨hc1, hc2, _, _⟩; exact h3 ⟨hc1, hc2⟩)]
      exact hck

theorem detailFold (cx cy cz : ℤ) (c0 : Chunk) :
    ∀ (l k : ℕ) (c : Chunk), c.length = c0.length → k + l = c0.length →
      (∀ j, k ≤ j → c.getD j 0 = c0.getD j 0) →
      (∀ j, j < k → c.getD j 0 = detailTarget cx cy cz c0 j) →
      ∀ j, ((List.range' k l).foldl (detailStep cx cy cz) c).getD j 0
        = if j < k + l then detailTarget cx cy cz c0 j else c0.getD j 0 := by
  intro l
  induction l with
  | zero =>
      intro k c hlen hkl hag htg j
      simp only [List.range', List.foldl_nil]
      by_cases hj : j < k + 0
      · rw [if_pos hj]
        exact htg j (by omega)
      · rw [if_neg hj]
        exact hag j (by omega)
  | succ l ih =>
      intro k c hlen hkl hag htg j
      rw [List.range'_succ, List.foldl_cons]
      have hstep := ih (k + 1) (detailStep cx cy cz c k)
        (by rw [detailStep_length]; exact hlen) (by omega)
        (fun j hj => by
          rw [detailStep_getD_ne cx cy cz c k j (by omega)]
          exact hag j (by omega))
        (fun j hj => by
          by_cases hjk : j = k
          · subst hjk
            exact detailStep_getD_self cx cy cz c c0 j hlen hag (by omega)
          · rw [detailStep_getD_ne cx cy cz c k j (by omega)]
            exact htg j (by omega))
        j
      rw [hstep]
      by_cases hj : j < k + 1 + l
      · rw [if_pos hj, if_pos (by omega)]
      · rw [if_neg hj, if_neg (by omega)]

theorem refineChunk_length (cx cy cz : ℤ) (c : Chunk) :
    (refineChunk cx cy cz c).length = c.length := by
  unfold refineChunk
  generalize List.range c.length = l
  induction l generalizing c with
  | nil => rfl
  | cons i rest ih =>
      rw [List.foldl_cons]
      rw [ih (detailStep cx cy cz c i)]
      exact detailStep_length cx cy cz c i

theorem refineChunk_getD (cx cy cz : ℤ) (c : Chunk) (j : ℕ) :
    (refineChunk cx cy cz c).getD j 0
      = if j < c.length then detailTarget cx cy cz c j else c.getD j 0 := by
  unfold refineChunk
  rw [List.range_eq_range']
  have h := detailFold cx cy cz c c.length 0 c rfl (by omega)
    (fun j _ => rfl) (fun j hj => absurd hj (by omega)) j
  rw [h]
  by_cases hj : j < c.length
  · rw [if_pos (by omega : j < 0 + c.length), if_pos hj]
  · rw [if_neg (by omega : ¬j < 0 + c.length), if_neg hj]

theorem detailPassStep_fold_cons (f : Coord3 × Chunk) (keys : List Coord3) :
    ∀ (d : List (Coord3 × Chunk)) (mb xb : Option Coord3), f.1 ∉ keys →
      keys.foldl detailPassStep ⟨f :: d, mb, xb⟩
        = ⟨f :: (keys.foldl detailPassStep ⟨d, mb, xb⟩).chunks,
           (keys.foldl detailPassStep ⟨d, mb, xb⟩).min_bounds,
           (keys.foldl detailPassStep ⟨d, mb, xb⟩).max_bounds⟩ := by
  induction keys with
  | nil => intro d mb xb _; rfl
  | cons k ks ih =>
      intro d mb xb hf
      have hfk : f.1 ≠ k := fun h => hf (h ▸ List.mem_cons_self _ _)
      have hfk' : f.1 ∉ ks := fun h => hf (List.mem_cons_of_mem _ h)
      have hgfd : dictGet (f :: d) k = dictGet d k := by
        rw [dictGet, if_neg hfk]
      rw [List.foldl_cons, List.foldl_cons]
      cases hdg : dictGet d k with
      | none =>
          have hstep1 : detailPassStep ⟨f :: d, mb, xb⟩ k = ⟨f :: d, mb, xb⟩ := by
            simp only [detailPassStep]
            rw [show dictGet (SparseVoxelOctree.chunks ⟨f :: d, mb, xb⟩) k
              = dictGet d k from hgfd, hdg]
          have hstep2 : detailPassStep ⟨d, mb, xb⟩ k = ⟨d, mb, xb⟩ := by
            simp only [detailPassStep]
            rw [show dictGet (SparseVoxelOctree.chunks ⟨d, mb, xb⟩) k
              = dictGet d k from rfl, hdg]
          rw [hstep1, hstep2]
          exact ih d mb xb hfk'
      | some c =>
          have hds : dictSet (f :: d) k (refineChunk k.1 k.2.1 k.2.2 c)
              = f :: dictSet d k (refineChunk k.1 k.2.1 k.2.2 c) := by
            rw [dictSet, if_neg hfk]
          have hstep1 : detailPassStep ⟨f :: d, mb, xb⟩ k
              = ⟨f :: dictSet d k (refineChunk k.1 k.2.1 k.2.2 c), mb, xb⟩ := by
            simp only [detailPassStep]
            rw [show dictGet (SparseVoxelOctree.chunks ⟨f :: d, mb, xb⟩) k
              = dictGet d k from hgfd, hdg]
            show (⟨dictSet (f :: d) k (refineChunk k.1 k.2.1 k.2.2 c), mb, xb⟩
              : SparseVoxelOctree) = _
            rw [hds]
          have hstep2 : detailPassStep ⟨d, mb, xb⟩ k
              = ⟨dictSet d k (refineChunk k.1 k.2.1 k.2.2 c), mb, xb⟩ := by
            simp only [detailPassStep]
            rw [show dictGet (SparseVoxelOctree.chunks ⟨d, mb, xb⟩) k
              = dictGet d k from rfl, hdg]
          rw [hstep1, hstep2]
          exact ih _ mb xb hfk'

theorem detailPassFold (d : List (Coord3 × Chunk)) (mb xb : Option Coord3)
    (hnd : (d.map (fun e => e.1)).Nodup) :
    (d.map (fun e => e.1)).foldl detailPassStep ⟨d, mb, xb⟩
      = ⟨d.map (fun e => (e.1, refineChunk e.1.1 e.1.2.1 e.1.2.2 e.2)), mb, xb⟩ := by
  induction d with
  | nil => rfl
  | cons e rest ih =>
      simp only [List.map_cons, List.foldl_cons] at *
      have hnd1 : e.1 ∉ rest.map (fun e => e.1) := (List.nodup_cons.mp hnd).1
      have hnd2 : (rest.map (fun e => e.1)).Nodup := (List.nodup_cons.mp hnd).2
      have hstep : detailPassStep ⟨e :: rest, mb, xb⟩ e.1
          = ⟨(e.1, refineChunk e.1.1 e.1.2.1 e.1.2.2 e.2) :: rest, mb, xb⟩ := by
        simp only [detailPassStep]
        rw [show dictGet (SparseVoxelOctree.chunks ⟨e :: rest, mb, xb⟩) e.1
          = some e.2 from by rw [dictGet, if_pos rfl]]
        show (⟨dictSet (e :: rest) e.1 (refineChunk e.1.1 e.1.2.1 e.1.2.2 e.2), mb, xb⟩
          : SparseVoxelOctree) = _
        rw [show dictSet (e :: rest) e.1 (refineChunk e.1.1 e.1.2.1 e.1.2.2 e.2)
          = (e.1, refineChunk e.1.1 e.1.2.1 e.1.2.2 e.2) :: rest from by
            rw [dictSet, if_pos rfl]]
      rw [hstep]
      rw [detailPassStep_fold_cons (e.1, refineChunk e.1.1 e.1.2.1 e.1.2.2 e.2)
        (List.map (fun e => e.1) rest) rest mb xb hnd1]
      rw [ih hnd2]

theorem dictGet_map_refine (d : List (Coord3 × Chunk)) (k : Coord3) (c : Chunk)
    (h : dictGet d k = some c) :
    dictGet (d.map (fun e => (e.1, refineChunk e.1.1 e.1.2.1 e.1.2.2 e.2))) k
      = some (refineChunk k.1 k.2.1 k.2.2 c) := by
  induction d with
  | nil => simp [dictGet] at h
  | cons e rest ih =>
      rw [dictGet] at h
      by_cases h0 : e.1 = k
      · rw [if_pos h0] at h
        obtain rfl : e.2 = c := by injection h
        subst h0
        rw [List.map_cons, dictGet, if_pos rfl]
      · rw [if_neg h0] at h
        rw [List.map_cons, dictGet, if_neg (by simpa using h0)]
        exact ih h

/-- C7: the detail pass preserves the exact chunk-key list (it never creates
or deletes a chunk), never touches the bounds metadata, rewrites every chunk in
place to refineChunk of that chunk alone (so it never reads a neighboring
chunk), and the per-voxel effect is detailTarget: a voxel is unchanged unless
it was dirt (id 3) below the chunk's top local layer with hash noise above the
threshold and an air voxel directly above inside the same chunk, in which case
it becomes grass (id 1). -/
theorem C7_detail_pass (t : SparseVoxelOctree) (hwf : t.WF) :
    ((applyDetailPass t).chunks.map (fun e => e.1) = t.chunks.map (fun e => e.1))
    ∧ (applyDetailPass t).min_bounds = t.min_bounds
    ∧ (applyDetailPass t).max_bounds = t.max_bounds
    ∧ (∀ k c, dictGet t.chunks k = some c →
        dictGet (applyDetailPass t).chunks k = some (refineChunk k.1 k.2.1 k.2.2 c))
    ∧ (∀ k c, dictGet t.chunks k = some c → ∀ i, i < CHUNK_VOL →
        (refineChunk k.1 k.2.1 k.2.2 c).getD i 0 = detailTarget k.1 k.2.1 k.2.2 c i) := by
  obtain ⟨d, mb, xb⟩ := t
  have hfold := detailPassFold d mb xb hwf.1
  have happ : applyDetailPass ⟨d, mb, xb⟩
      = ⟨d.map (fun e => (e.1, refineChunk e.1.1 e.1.2.1 e.1.2.2 e.2)), mb, xb⟩ := by
    rw [applyDetailPass]
    exact hfold
  rw [happ]
  refine ⟨by simp, rfl, rfl, ?_, ?_⟩
  · intro k c h
    exact dictGet_map_refine d k c h
  · intro k c h i hi
    rw [refineChunk_getD]
    rw [if_pos (by rw [hwf.2 (k, c) (dictGet_mem h)]; exact hi)]

/-- Witness for C7_detail_pass: a store holding one all-air chunk. -/
theorem C7_detail_pass_witness :
    ((applyDetailPass ⟨[((0, 0, 0), List.replicate CHUNK_VOL 0)], none, none⟩).chunks.map
        (fun e => e.1)
      = ([((0, 0, 0), List.replicate CHUNK_VOL 0)] : List (Coord3 × Chunk)).map (fun e => e.1)) :=
  (C7_detail_pass ⟨[((0, 0, 0), List.replicate CHUNK_VOL 0)], none, none⟩
    ⟨by simp, by intro e he; simp at he; subst he; simp⟩).1

theorem setSlice_length (c : Chunk) (i j m : ℕ) (hij : i ≤ j) (hj : j ≤ c.length) :
    (setSlice c i j m).length = c.length := by
  unfold setSlice
  simp only [List.length_append, List.length_replicate, List.length_take, List.length_drop]
  omega

theorem setSlice_getD (c : Chunk) (i j m : ℕ) (hij : i ≤ j) (hj : j ≤ c.length) (n : ℕ) :
    (setSlice c i j m).getD n 0 = if i ≤ n ∧ n < j then m else c.getD n 0 := by
  unfold setSlice
  simp only [List.getD_eq_getElem?_getD]
  have htl : (c.take i).length = i := by simp [List.length_take]; omega
  have htrl : (c.take i ++ List.replicate (j - i) m).length = j := by
    simp only [List.length_append, htl, List.length_replicate]
    omega
  by_cases h1 : n < i
  · rw [if_neg (by omega)]
    rw [List.getElem?_append_left (by rw [htrl]; omega)]
    rw [List.getElem?_append_left (by rw [htl]; exact h1)]
    rw [List.getElem?_take_of_lt h1]
  · by_cases h2 : n < j
    · rw [if_pos ⟨by omega, h2⟩]
      rw [List.getElem?_append_left (by rw [htrl]; exact h2)]
      rw [List.getElem?_append_right (by rw [htl]; omega)]
      rw [htl]
      rw [List.getElem?_replicate]
      rw [if_pos (by omega)]
      rfl
    · rw [if_neg (by omega)]
      rw [List.getElem?_append_right (by rw [htrl]; omega)]
      rw [htrl]
      rw [List.getElem?_drop]
      have harith : j + (n - j) = n := by omega
      rw [harith]

theorem foldl_length_pres {α : Type} (n : ℕ) (f : Chunk → α → Chunk) :
    ∀ (l : List α) (c : Chunk), c.length = n →
      (∀ c' a, a ∈ l → c'.length = n → (f c' a).length = n) →
      (l.foldl f c).length = n := by
  intro l
  induction l with
  | nil => intro c hc _; exact hc
  | cons a rest ih =>
      intro c hc hstep
      rw [List.foldl_cons]
      exact ih (f c a) (hstep c a (List.mem_cons_self _ _) hc)
        (fun c' b hb hc' => hstep c' b (List.mem_cons_of_mem _ hb) hc')

theorem CHUNK_SIZE_eq : CHUNK_SIZE = 32 := rfl

theorem CHUNK_VOL_eq : CHUNK_VOL = 32768 := by norm_num [CHUNK_VOL, CHUNK_SIZE]

theorem yfold_getD (m z lsx lex : ℕ) (hx : lsx ≤ lex) (hlex : lex ≤ CHUNK_SIZE)
    (hz : z < CHUNK_SIZE) :
    ∀ (ys : List ℕ) (c : Chunk), c.length = CHUNK_VOL → (∀ y ∈ ys, y < CHUNK_SIZE) →
      ∀ n,
      (ys.foldl (fun c2 y => setSlice c2 (z * (CHUNK_SIZE * CHUNK_SIZE) + y * CHUNK_SIZE + lsx)
          (z * (CHUNK_SIZE * CHUNK_SIZE) + y * CHUNK_SIZE + lex) m) c).getD n 0
        = if n / (CHUNK_SIZE * CHUNK_SIZE) = z
              ∧ n % (CHUNK_SIZE * CHUNK_SIZE) / CHUNK_SIZE ∈ ys
              ∧ lsx ≤ n % CHUNK_SIZE ∧ n % CHUNK_SIZE < lex
          then m else c.getD n 0 := by
  intro ys
  induction ys with
  | nil =>
      intro c hc hys n
      rw [List.foldl_nil, if_neg (by rintro ⟨_, h, _⟩; exact absurd h (List.not_mem_nil _))]
  | cons y ys ih =>
      intro c hc hys n
      have hy : y < CHUNK_SIZE := hys y (List.mem_cons_self _ _)
      have hys' : ∀ y' ∈ ys, y' < CHUNK_SIZE := fun y' h => hys y' (List.mem_cons_of_mem _ h)
      have hsliceIJ : z * (CHUNK_SIZE * CHUNK_SIZE) + y * CHUNK_SIZE + lsx
          ≤ z * (CHUNK_SIZE * CHUNK_SIZE) + y * CHUNK_SIZE + lex := by omega
      have hsliceJ : z * (CHUNK_SIZE * CHUNK_SIZE) + y * CHUNK_SIZE + lex ≤ c.length := by
        rw [hc, CHUNK_VOL_eq]
        rw [CHUNK_SIZE_eq] at *
        omega
      rw [List.foldl_cons]
      rw [ih (setSlice c _ _ m)
        (by rw [setSlice_length _ _ _ _ hsliceIJ hsliceJ]; exact hc) hys' n]
      rw [setSlice_getD c _ _ m hsliceIJ hsliceJ n]
      by_cases hcond : n / (CHUNK_SIZE * CHUNK_SIZE) = z
          ∧ n % (CHUNK_SIZE * CHUNK_SIZE) / CHUNK_SIZE ∈ ys
          ∧ lsx ≤ n % CHUNK_SIZE ∧ n % CHUNK_SIZE < lex
      · rw [if_pos hcond, if_pos ⟨hcond.1, List.mem_cons_of_mem _ hcond.2.1, hcond.2.2⟩]
      · rw [if_neg hcond]
        by_cases hslice : z * (CHUNK_SIZE * CHUNK_SIZE) + y * CHUNK_SIZE + lsx ≤ n
            ∧ n < z * (CHUNK_SIZE * CHUNK_SIZE) + y * CHUNK_SIZE + lex
        · rw [if_pos hslice]
          have hdec : n / (CHUNK_SIZE * CHUNK_SIZE) = z
              ∧ n % (CHUNK_SIZE * CHUNK_SIZE) / CHUNK_SIZE = y
              ∧ lsx ≤ n % CHUNK_SIZE ∧ n % CHUNK_SIZE < lex := by
            rw [CHUNK_SIZE_eq] at *
            omega
          rw [if_pos ⟨hdec.1, by rw [hdec.2.1]; exact List.mem_cons_self _ _, hdec.2.2⟩]
        · rw [if_neg hslice]
          rw [if_neg (by
            rintro ⟨h1, h2, h3⟩
            rcases List.mem_cons.mp h2 with h2a | h2b
            · apply hslice
              rw [CHUNK_SIZE_eq] at *
              omega
            · exact hcond ⟨h1, h2b, h3⟩)]

theorem yfold_length (m z lsx lex : ℕ) (hx : lsx ≤ lex) (hlex : lex ≤ CHUNK_SIZE)
    (hz : z < CHUNK_SIZE) (ys : List ℕ) (hys : ∀ y ∈ ys, y < CHUNK_SIZE) (c : Chunk)
    (hc : c.length = CHUNK_VOL) :
    (ys.foldl (fun c2 y => setSlice c2 (z * (CHUNK_SIZE * CHUNK_SIZE) + y * CHUNK_SIZE + lsx)
        (z * (CHUNK_SIZE * CHUNK_SIZE) + y * CHUNK_SIZE + lex) m) c).length = CHUNK_VOL :=
  foldl_length_pres CHUNK_VOL _ ys c hc (fun c' y hyy hc' => by
    rw [setSlice_length]
    · exact hc'
    · omega
    · rw [hc', CHUNK_VOL_eq]
      have hyy' := hys y hyy
      rw [CHUNK_SIZE_eq] at *
      omega)

theorem zfold_getD (m lsx lex lsy ley : ℕ) (hx : lsx ≤ lex) (hlex : lex ≤ CHUNK_SIZE)
    (hley : ley ≤ CHUNK_SIZE) :
    ∀ (zs : List ℕ) (c : Chunk), c.length = CHUNK_VOL → (∀ z ∈ zs, z < CHUNK_SIZE) → ∀ n,
      (zs.foldl (fun c1 z => (natRange lsy ley).foldl
          (fun c2 y => setSlice c2 (z * (CHUNK_SIZE * CHUNK_SIZE) + y * CHUNK_SIZE + lsx)
            (z * (CHUNK_SIZE * CHUNK_SIZE) + y * CHUNK_SIZE + lex) m) c1) c).getD n 0
        = if n / (CHUNK_SIZE * CHUNK_SIZE) ∈ zs
              ∧ (lsy ≤ n % (CHUNK_SIZE * CHUNK_SIZE) / CHUNK_SIZE
                 ∧ n % (CHUNK_SIZE * CHUNK_SIZE) / CHUNK_SIZE < ley)
              ∧ lsx ≤ n % CHUNK_SIZE ∧ n % CHUNK_SIZE < lex
          then m else c.getD n 0 := by
  intro zs
  induction zs with
  | nil =>
      intro c hc hzs n
      rw [List.foldl_nil, if_neg (by rintro ⟨h, _, _⟩; exact absurd h (List.not_mem_nil _))]
  | cons z zs ih =>
      intro c hc hzs n
      have hz : z < CHUNK_SIZE := hzs z (List.mem_cons_self _ _)
      have hzs' : ∀ z' ∈ zs, z' < CHUNK_SIZE := fun z' h => hzs z' (List.mem_cons_of_mem _ h)
      have hysmem : ∀ y ∈ natRange lsy ley, y < CHUNK_SIZE := fun y h => by
        have := mem_natRange.mp h
        omega
      have hylen : ((natRange lsy ley).foldl
          (fun c2 y => setSlice c2 (z * (CHUNK_SIZE * CHUNK_SIZE) + y * CHUNK_SIZE + lsx)
            (z * (CHUNK_SIZE * CHUNK_SIZE) + y * CHUNK_SIZE + lex) m) c).length = CHUNK_VOL :=
        yfold_length m z lsx lex hx hlex hz _ hysmem c hc
      rw [List.foldl_cons]
      rw [ih _ hylen hzs' n]
      rw [yfold_getD m z lsx lex hx hlex hz _ c hc hysmem n]
      by_cases hcond : n / (CHUNK_SIZE * CHUNK_SIZE) ∈ zs
          ∧ (lsy ≤ n % (CHUNK_SIZE * CHUNK_SIZE) / CHUNK_SIZE
             ∧ n % (CHUNK_SIZE * CHUNK_SIZE) / CHUNK_SIZE < ley)
          ∧ lsx ≤ n % CHUNK_SIZE ∧ n % CHUNK_SIZE < lex
      · rw [if_pos hcond, if_pos ⟨List.mem_cons_of_mem _ hcond.1, hcond.2⟩]
      · rw [if_neg hcond]
        by_cases hhead : n / (CHUNK_SIZE * CHUNK_SIZE) = z
            ∧ n % (CHUNK_SIZE * CHUNK_SIZE) / CHUNK_SIZE ∈ natRange lsy ley
            ∧ lsx ≤ n % CHUNK_SIZE ∧ n % CHUNK_SIZE < lex
        · rw [if_pos hhead]
          have hymem := mem_natRange.mp hhead.2.1
          rw [if_pos ⟨by rw [hhead.1]; exact List.mem_cons_self _ _, hymem, hhead.2.2⟩]
        · rw [if_neg hhead]
          rw [if_neg (by
            rintro ⟨h1, h2, h3⟩
            rcases List.mem_cons.mp h1 with h1a | h1b
            · exact hhead ⟨h1a, mem_natRange.mpr h2, h3⟩
            · exact hcond ⟨h1b, h2, h3⟩)]

theorem fillRows_getD (lsx lex lsy ley lsz lez m : ℕ) (hx : lsx ≤ lex)
    (hlex : lex ≤ CHUNK_SIZE) (hley : ley ≤ CHUNK_SIZE) (hlez : lez ≤ CHUNK_SIZE)
    (c : Chunk) (hc : c.length = CHUNK_VOL) (n : ℕ) :
    (fillRows lsx lex lsy ley lsz lez m c).getD n 0
      = if (lsz ≤ n / (CHUNK_SIZE * CHUNK_SIZE) ∧ n / (CHUNK_SIZE * CHUNK_SIZE) < lez)
            ∧ (lsy ≤ n % (CHUNK_SIZE * CHUNK_SIZE) / CHUNK_SIZE
               ∧ n % (CHUNK_SIZE * CHUNK_SIZE) / CHUNK_SIZE < ley)
            ∧ lsx ≤ n % CHUNK_SIZE ∧ n % CHUNK_SIZE < lex
        then m else c.getD n 0 := by
  unfold fillRows
  have hzsmem : ∀ z ∈ natRange lsz lez, z < CHUNK_SIZE := fun z h => by
    have := mem_natRange.mp h
    omega
  rw [zfold_getD m lsx lex lsy ley hx hlex hley _ c hc hzsmem n]
  by_cases hz : n / (CHUNK_SIZE * CHUNK_SIZE) ∈ natRange lsz lez
  · have hzb := mem_natRange.mp hz
    by_cases hrest : (lsy ≤ n % (CHUNK_SIZE * CHUNK_SIZE) / CHUNK_SIZE
        ∧ n % (CHUNK_SIZE * CHUNK_SIZE) / CHUNK_SIZE < ley)
        ∧ lsx ≤ n % CHUNK_SIZE ∧ n % CHUNK_SIZE < lex
    · rw [if_pos ⟨hz, hrest⟩, if_pos ⟨hzb, hrest⟩]
    · rw [if_neg (by rintro ⟨_, h⟩; exact hrest h), if_neg (by rintro ⟨_, h⟩; exact hrest h)]
  · rw [if_neg (by rintro ⟨h, _⟩; exact hz h)]
    rw [if_neg (by rintro ⟨h, _⟩; exact hz (mem_natRange.mpr h))]

theorem fillRows_length (lsx lex lsy ley lsz lez m : ℕ) (hx : lsx ≤ lex)
    (hlex : lex ≤ CHUNK_SIZE) (hley : ley ≤ CHUNK_SIZE) (hlez : lez ≤ CHUNK_SIZE) (c : Chunk)
    (hc : c.length = CHUNK_VOL) :
    (fillRows lsx lex lsy ley lsz lez m c).length = CHUNK_VOL := by
  unfold fillRows
  refine foldl_length_pres CHUNK_VOL _ _ c hc (fun c' z hz hc' => ?_)
  have hzb := mem_natRange.mp hz
  exact yfold_length m z lsx lex hx hlex (by omega) _
    (fun y hy => by have := mem_natRange.mp hy; omega) c' hc'

theorem oct_get_chunk_fst_length {t : SparseVoxelOctree}
    (hlen : ∀ e ∈ t.chunks, (e.2 : Chunk).length = CHUNK_VOL) (cx cy cz : ℤ) :
    (t.get_chunk cx cy cz).1.length = CHUNK_VOL := by
  rw [SparseVoxelOctree.get_chunk]
  cases hd : dictGet t.chunks (cx, cy, cz) with
  | none => simp
  | some c => exact hlen _ (dictGet_mem hd)

theorem oct_get_chunk_snd_dictGet_self (t : SparseVoxelOctree) (cx cy cz : ℤ) :
    dictGet (t.get_chunk cx cy cz).2.chunks (cx, cy, cz) = some (t.get_chunk cx cy cz).1 := by
  rw [SparseVoxelOctree.get_chunk]
  cases hd : dictGet t.chunks (cx, cy, cz) with
  | none => simp [dictGet_dictSet_self]
  | some c => simpa using hd

theorem oct_get_chunk_snd_dictGet_ne (t : SparseVoxelOctree) (cx cy cz : ℤ) (k : Coord3)
    (hk : k ≠ (cx, cy, cz)) :
    dictGet (t.get_chunk cx cy cz).2.chunks k = dictGet t.chunks k := by
  rw [SparseVoxelOctree.get_chunk]
  cases hd : dictGet t.chunks (cx, cy, cz) with
  | none => simp [dictGet_dictSet_ne _ _ _ _ hk]
  | some c => simp

theorem oct_get_chunk_hlen {t : SparseVoxelOctree}
    (hlen : ∀ e ∈ t.chunks, (e.2 : Chunk).length = CHUNK_VOL) (cx cy cz : ℤ) :
    ∀ e ∈ (t.get_chunk cx cy cz).2.chunks, (e.2 : Chunk).length = CHUNK_VOL := by
  rw [SparseVoxelOctree.get_chunk]
  cases hd : dictGet t.chunks (cx, cy, cz) with
  | none =>
      intro e he
      rcases mem_dictSet he with h | h
      · subst h; simp
      · exact hlen _ h
  | some c => exact hlen

theorem oct_get_chunk_snd_min_bounds (t : SparseVoxelOctree) (cx cy cz : ℤ) :
    (t.get_chunk cx cy cz).2.min_bounds = t.min_bounds := by
  rw [SparseVoxelOctree.get_chunk]
  cases hd : dictGet t.chunks (cx, cy, cz) <;> simp

theorem oct_get_chunk_snd_max_bounds (t : SparseVoxelOctree) (cx cy cz : ℤ) :
    (t.get_chunk cx cy cz).2.max_bounds = t.max_bounds := by
  rw [SparseVoxelOctree.get_chunk]
  cases hd : dictGet t.chunks (cx, cy, cz) <;> simp

theorem fillRegionChunk_hlen (sx sy sz ex ey ez : ℤ) (m : ℕ) (t : SparseVoxelOctree)
    (hlen : ∀ e ∈ t.chunks, (e.2 : Chunk).length = CHUNK_VOL) (key : Coord3) :
    ∀ e ∈ (fillRegionChunk sx sy sz ex ey ez m t key).chunks,
      (e.2 : Chunk).length = CHUNK_VOL := by
  simp only [fillRegionChunk]
  split
  · exact hlen
  case isFalse hns =>
    intro e he
    rcases mem_dictSet he with h | h
    · subst h
      simp only
      rw [fillRows_length]
      · omega
      · rw [CHUNK_SIZE_eq]; omega
      · rw [CHUNK_SIZE_eq]; omega
      · rw [CHUNK_SIZE_eq]; omega
      · exact oct_get_chunk_fst_length hlen _ _ _
    · exact oct_get_chunk_hlen hlen _ _ _ _ h

set_option maxHeartbeats 2000000 in
theorem fillRows_getD_point (sx sy sz ex ey ez x y z : ℤ) (m : ℕ) (c : Chunk)
    (hc : c.length = CHUNK_VOL)
    (h1 : max sx (x / (CHUNK_SIZE : ℤ) * (CHUNK_SIZE : ℤ))
      < min ex (x / (CHUNK_SIZE : ℤ) * (CHUNK_SIZE : ℤ) + (CHUNK_SIZE : ℤ)))
    (h2 : max sy (y / (CHUNK_SIZE : ℤ) * (CHUNK_SIZE : ℤ))
      < min ey (y / (CHUNK_SIZE : ℤ) * (CHUNK_SIZE : ℤ) + (CHUNK_SIZE : ℤ)))
    (h3 : max sz (z / (CHUNK_SIZE : ℤ) * (CHUNK_SIZE : ℤ))
      < min ez (z / (CHUNK_SIZE : ℤ) * (CHUNK_SIZE : ℤ) + (CHUNK_SIZE : ℤ))) :
    (fillRows
        (max sx (x / (CHUNK_SIZE : ℤ) * (CHUNK_SIZE : ℤ))
          - x / (CHUNK_SIZE : ℤ) * (CHUNK_SIZE : ℤ)).toNat
        (min ex (x / (CHUNK_SIZE : ℤ) * (CHUNK_SIZE : ℤ) + (CHUNK_SIZE : ℤ))
          - x / (CHUNK_SIZE : ℤ) * (CHUNK_SIZE : ℤ)).toNat
        (max sy (y / (CHUNK_SIZE : ℤ) * (CHUNK_SIZE : ℤ))
          - y / (CHUNK_SIZE : ℤ) * (CHUNK_SIZE : ℤ)).toNat
        (min ey (y / (CHUNK_SIZE : ℤ) * (CHUNK_SIZE : ℤ) + (CHUNK_SIZE : ℤ))
          - y / (CHUNK_SIZE : ℤ) * (CHUNK_SIZE : ℤ)).toNat
        (max sz (z / (CHUNK_SIZE : ℤ) * (CHUNK_SIZE : ℤ))
          - z / (CHUNK_SIZE : ℤ) * (CHUNK_SIZE : ℤ)).toNat
        (min ez (z / (CHUNK_SIZE : ℤ) * (CHUNK_SIZE : ℤ) + (CHUNK_SIZE : ℤ))
          - z / (CHUNK_SIZE : ℤ) * (CHUNK_SIZE : ℤ)).toNat
        m c).getD (localIndex x y z) 0
      = if sx ≤ x ∧ x < ex ∧ sy ≤ y ∧ y < ey ∧ sz ≤ z ∧ z < ez then m
        else c.getD (localIndex x y z) 0 := by
  rw [fillRows_getD _ _ _ _ _ _ m
    (by rw [CHUNK_SIZE_eq] at h1 ⊢; omega)
    (by rw [CHUNK_SIZE_eq] at h1 ⊢; omega)
    (by rw [CHUNK_SIZE_eq] at h2 ⊢; omega)
    (by rw [CHUNK_SIZE_eq] at h3 ⊢; omega)
    c hc (localIndex x y z)]
  by_cases hbox : sx ≤ x ∧ x < ex ∧ sy ≤ y ∧ y < ey ∧ sz ≤ z ∧ z < ez
  · rw [if_pos hbox, if_pos (by
      simp only [localIndex]
      rw [CHUNK_SIZE_eq] at *
      omega)]
  · rw [if_neg hbox, if_neg (by
      simp only [localIndex]
      rw [CHUNK_SIZE_eq] at *
      omega)]

set_option maxHeartbeats 2000000 in
theorem fillRegionChunk_get_voxel_self (sx sy sz ex ey ez : ℤ) (m : ℕ)
    (t : SparseVoxelOctree) (hlen : ∀ e ∈ t.chunks, (e.2 : Chunk).length = CHUNK_VOL)
    (x y z : ℤ) :
    (fillRegionChunk sx sy sz ex ey ez m t (chunkKey x y z)).get_voxel x y z
      = if sx ≤ x ∧ x < ex ∧ sy ≤ y ∧ y < ey ∧ sz ≤ z ∧ z < ez then m
        else t.get_voxel x y z := by
  simp only [fillRegionChunk, chunkKey]
  split
  case isTrue hskip =>
    rw [if_neg (by
      rintro ⟨h1, h2, h3, h4, h5, h6⟩
      rw [CHUNK_SIZE_eq] at hskip
      omega)]
  case isFalse hns =>
    rw [SparseVoxelOctree.get_voxel]
    simp only [chunkKey]
    rw [dictGet_dictSet_self]
    show List.getD (fillRows _ _ _ _ _ _ m
      (t.get_chunk (x / (CHUNK_SIZE : ℤ)) (y / (CHUNK_SIZE : ℤ)) (z / (CHUNK_SIZE : ℤ))).1)
      (localIndex x y z) 0 = _
    have hlen1 := oct_get_chunk_fst_length hlen (x / (CHUNK_SIZE : ℤ)) (y / (CHUNK_SIZE : ℤ))
      (z / (CHUNK_SIZE : ℤ))
    rw [fillRows_getD_point sx sy sz ex ey ez x y z m _ hlen1
      (by rw [CHUNK_SIZE_eq] at hns ⊢; omega)
      (by rw [CHUNK_SIZE_eq] at hns ⊢; omega)
      (by rw [CHUNK_SIZE_eq] at hns ⊢; omega)]
    by_cases hbox : sx ≤ x ∧ x < ex ∧ sy ≤ y ∧ y < ey ∧ sz ≤ z ∧ z < ez
    · rw [if_pos hbox, if_pos hbox]
    · rw [if_neg hbox, if_neg hbox]
      rw [SparseVoxelOctree.get_voxel]
      simp only [chunkKey]
      cases hd : dictGet t.chunks (x / (CHUNK_SIZE : ℤ), y / (CHUNK_SIZE : ℤ),
          z / (CHUNK_SIZE : ℤ)) with
      | none =>
          have h0 : (t.get_chunk (x / (CHUNK_SIZE : ℤ)) (y / (CHUNK_SIZE : ℤ))
              (z / (CHUNK_SIZE : ℤ))).1 = List.replicate CHUNK_VOL 0 := by
            rw [SparseVoxelOctree.get_chunk, hd]
          rw [h0, getD_replicate_zero]
      | some c0 =>
          have h0 : (t.get_chunk (x / (CHUNK_SIZE : ℤ)) (y / (CHUNK_SIZE : ℤ))
              (z / (CHUNK_SIZE : ℤ))).1 = c0 := by
            rw [SparseVoxelOctree.get_chunk, hd]
          rw [h0]

theorem fillRegionChunk_get_voxel_ne (sx sy sz ex ey ez : ℤ) (m : ℕ)
    (t : SparseVoxelOctree) (key : Coord3) (x y z : ℤ) (hk : key ≠ chunkKey x y z) :
    (fillRegionChunk sx sy sz ex ey ez m t key).get_voxel x y z = t.get_voxel x y z := by
  simp only [fillRegionChunk]
  split
  · rfl
  · rw [SparseVoxelOctree.get_voxel, SparseVoxelOctree.get_voxel]
    rw [dictGet_dictSet_ne _ key (chunkKey x y z) _ (fun h => hk h.symm)]
    rw [oct_get_chunk_snd_dictGet_ne t key.1 key.2.1 key.2.2 (chunkKey x y z)
      (fun h => hk (by exact h.symm))]

theorem fillRegion_fold_nomem (sx sy sz ex ey ez : ℤ) (m : ℕ) (x y z : ℤ) :
    ∀ (keys : List Coord3) (t : SparseVoxelOctree),
      chunkKey x y z ∉ keys →
      (keys.foldl (fillRegionChunk sx sy sz ex ey ez m) t).get_voxel x y z
        = t.get_voxel x y z := by
  intro keys
  induction keys with
  | nil => intro t _; rfl
  | cons k ks ih =>
      intro t hmem
      rw [List.foldl_cons]
      rw [ih _ (fun h => hmem (List.mem_cons_of_mem _ h))]
      exact fillRegionChunk_get_voxel_ne sx sy sz ex ey ez m t k x y z
        (fun h => hmem (h ▸ List.mem_cons_self _ _))

theorem fillRegion_fold_preserve (sx sy sz ex ey ez : ℤ) (m : ℕ) (x y z : ℤ)
    (hout : ¬(sx ≤ x ∧ x < ex ∧ sy ≤ y ∧ y < ey ∧ sz ≤ z ∧ z < ez)) :
    ∀ (keys : List Coord3) (t : SparseVoxelOctree),
      (∀ e ∈ t.chunks, (e.2 : Chunk).length = CHUNK_VOL) →
      (keys.foldl (fillRegionChunk sx sy sz ex ey ez m) t).get_voxel x y z
        = t.get_voxel x y z := by
  intro keys
  induction keys with
  | nil => intro t _; rfl
  | cons k ks ih =>
      intro t hlen
      rw [List.foldl_cons]
      rw [ih _ (fillRegionChunk_hlen sx sy sz ex ey ez m t hlen k)]
      by_cases hk : k = chunkKey x y z
      · subst hk
        rw [fillRegionChunk_get_voxel_self sx sy sz ex ey ez m t hlen x y z]
        rw [if_neg hout]
      · exact fillRegionChunk_get_voxel_ne sx sy sz ex ey ez m t k x y z hk

theorem fillRegion_fold_inbox (sx sy sz ex ey ez : ℤ) (m : ℕ) (x y z : ℤ)
    (hin : sx ≤ x ∧ x < ex ∧ sy ≤ y ∧ y < ey ∧ sz ≤ z ∧ z < ez) :
    ∀ (keys : List Coord3) (t : SparseVoxelOctree),
      (∀ e ∈ t.chunks, (e.2 : Chunk).length = CHUNK_VOL) →
      chunkKey x y z ∈ keys →
      (keys.foldl (fillRegionChunk sx sy sz ex ey ez m) t).get_voxel x y z = m := by
  intro keys
  induction keys with
  | nil => intro t _ h; exact absurd h (List.not_mem_nil _)
  | cons k ks ih =>
      intro t hlen hmem
      rw [List.foldl_cons]
      by_cases hk : chunkKey x y z ∈ ks
      · exact ih _ (fillRegionChunk_hlen sx sy sz ex ey ez m t hlen k) hk
      · have hkk : k = chunkKey x y z := by
          rcases List.mem_cons.mp hmem with h | h
          · exact h.symm
          · exact absurd h hk
        subst hkk
        rw [fillRegion_fold_nomem sx sy sz ex ey ez m x y z ks _ hk]
        rw [fillRegionChunk_get_voxel_self sx sy sz ex ey ez m t hlen x y z]
        rw [if_pos hin]

theorem mem_chunkKeyList {minCx maxCx minCy maxCy minCz maxCz : ℤ} {k : Coord3} :
    k ∈ chunkKeyList minCx maxCx minCy maxCy minCz maxCz
      ↔ (minCx ≤ k.1 ∧ k.1 ≤ maxCx) ∧ (minCy ≤ k.2.1 ∧ k.2.1 ≤ maxCy)
        ∧ (minCz ≤ k.2.2 ∧ k.2.2 ≤ maxCz) := by
  unfold chunkKeyList
  simp only [List.mem_flatMap, List.mem_map, mem_intRange]
  constructor
  · rintro ⟨cx, hcx, cy, hcy, cz, hcz, rfl⟩
    simp only
    omega
  · rintro ⟨h1, h2, h3⟩
    exact ⟨k.1, by omega, k.2.1, by omega, k.2.2, by omega, rfl⟩

theorem getElem_eq_getD {l : List ℕ} {i : ℕ} (h : i < l.length) : l[i] = l.getD i 0 := by
  rw [List.getD_eq_getElem?_getD, List.getElem?_eq_getElem h]
  rfl

theorem fillRows_full (m : ℕ) (c : Chunk) (hc : c.length = CHUNK_VOL) :
    fillRows 0 32 0 32 0 32 m c = List.replicate CHUNK_VOL m := by
  have h32 : (32 : ℕ) ≤ CHUNK_SIZE := by rw [CHUNK_SIZE_eq]
  have hlen : (fillRows 0 32 0 32 0 32 m c).length = CHUNK_VOL :=
    fillRows_length 0 32 0 32 0 32 m (by omega) h32 h32 h32 c hc
  apply List.ext_getElem (by rw [hlen]; simp)
  intro i h1 h2
  have hiv : i < CHUNK_VOL := by rw [hlen] at h1; exact h1
  rw [getElem_eq_getD h1]
  rw [fillRows_getD 0 32 0 32 0 32 m (by omega) h32 h32 h32 c hc i]
  rw [if_pos (by
    rw [CHUNK_SIZE_eq]
    rw [CHUNK_VOL_eq] at hiv
    omega)]
  simp

set_option maxHeartbeats 1000000 in
set_option maxRecDepth 100000 in
/-- C4: fill_region writes exactly the voxels with start <= c < start + size on
each axis (half-open upper bound) and leaves every other voxel unchanged; in
particular fill_region((0,0,0), (32,32,32), M) on an empty store yields a store
holding exactly one chunk, at chunk coordinate (0,0,0), whose dense contents
are uniformly M and whose RLE encoding is the single run "M:32768"; no other
chunk exists. -/
theorem C4_fill_region_box (start size : Coord3) (m : ℕ) :
    (∀ (t : SparseVoxelOctree) (x y z : ℤ),
        (∀ e ∈ t.chunks, (e.2 : Chunk).length = CHUNK_VOL) →
        (t.fill_region start size m).get_voxel x y z
          = if start.1 ≤ x ∧ x < start.1 + size.1 ∧ start.2.1 ≤ y ∧ y < start.2.1 + size.2.1
                ∧ start.2.2 ≤ z ∧ z < start.2.2 + size.2.2
            then m else t.get_voxel x y z)
    ∧ ((emptyOctree.fill_region (0, 0, 0) (32, 32, 32) m).chunks
        = [(((0 : ℤ), (0 : ℤ), (0 : ℤ)), List.replicate CHUNK_VOL m)])
    ∧ rleString (List.replicate CHUNK_VOL m) = toString m ++ ":32768" := by
  refine ⟨?_, ?_, ?_⟩
  · intro t x y z hlen
    simp only [SparseVoxelOctree.fill_region]
    by_cases hbox : start.1 ≤ x ∧ x < start.1 + size.1 ∧ start.2.1 ≤ y
        ∧ y < start.2.1 + size.2.1 ∧ start.2.2 ≤ z ∧ z < start.2.2 + size.2.2
    · rw [if_pos hbox]
      apply fillRegion_fold_inbox _ _ _ _ _ _ m x y z hbox _ t hlen
      apply mem_chunkKeyList.mpr
      simp only [chunkKey]
      rw [CHUNK_SIZE_eq] at *
      omega
    · rw [if_neg hbox]
      apply fillRegion_fold_preserve _ _ _ _ _ _ m x y z hbox _ t hlen
  · have h1 : (emptyOctree.fill_region (0, 0, 0) (32, 32, 32) m).chunks
        = [(((0 : ℤ), (0 : ℤ), (0 : ℤ)),
            fillRows 0 32 0 32 0 32 m (List.replicate CHUNK_VOL 0))] := rfl
    rw [h1, fillRows_full m _ (by simp)]
  · rw [rleString_replicate m CHUNK_VOL (by rw [CHUNK_VOL_eq]; omega)]
    rw [String.append_assoc]
    rfl

/-- Witness for C4_fill_region_box: the empty store with the unit box at the
origin; the general characterization applied at the point (0, 0, 0). -/
theorem C4_fill_region_box_witness :
    (emptyOctree.fill_region ((0 : ℤ), (0 : ℤ), (0 : ℤ)) ((1 : ℤ), (1 : ℤ), (1 : ℤ)) 7).get_voxel 0 0 0
      = if (0 : ℤ) ≤ 0 ∧ (0 : ℤ) < 0 + 1 ∧ (0 : ℤ) ≤ 0 ∧ (0 : ℤ) < 0 + 1
            ∧ (0 : ℤ) ≤ 0 ∧ (0 : ℤ) < 0 + 1
        then 7 else emptyOctree.get_voxel 0 0 0 :=
  (C4_fill_region_box ((0 : ℤ), (0 : ℤ), (0 : ℤ)) ((1 : ℤ), (1 : ℤ), (1 : ℤ)) 7).1
    emptyOctree 0 0 0 (by intro e he; simp [emptyOctree] at he)

theorem digitChar_isDigit (m : ℕ) (h : m < 10) : (Nat.digitChar m).isDigit = true := by
  interval_cases m <;> decide

theorem digitChar_toNat (m : ℕ) (h : m < 10) : (Nat.digitChar m).toNat - 48 = m := by
  interval_cases m <;> decide

theorem toDigitsCore_append (fuel : ℕ) :
    ∀ (n : ℕ) (ds : List Char),
      Nat.toDigitsCore 10 fuel n ds = Nat.toDigitsCore 10 fuel n [] ++ ds := by
  induction fuel with
  | zero => intro n ds; simp [Nat.toDigitsCore]
  | succ fuel ih =>
      intro n ds
      simp only [Nat.toDigitsCore]
      split
      · simp
      · rw [ih (n / 10) (Nat.digitChar (n % 10) :: ds),
          ih (n / 10) [Nat.digitChar (n % 10)]]
        simp

theorem toDigitsCore_mem (fuel : ℕ) :
    ∀ (n : ℕ) (ds : List Char) (c : Char), c ∈ Nat.toDigitsCore 10 fuel n ds →
      c ∈ ds ∨ ∃ m, m < 10 ∧ c = Nat.digitChar m := by
  induction fuel with
  | zero => intro n ds c hc; exact Or.inl hc
  | succ fuel ih =>
      intro n ds c hc
      simp only [Nat.toDigitsCore] at hc
      by_cases h0 : n / 10 = 0
      · rw [if_pos h0] at hc
        rcases List.mem_cons.mp hc with h | h
        · exact Or.inr ⟨n % 10, by omega, h⟩
        · exact Or.inl h
      · rw [if_neg h0] at hc
        rcases ih (n / 10) (Nat.digitChar (n % 10) :: ds) c hc with h | h
        · rcases List.mem_cons.mp h with h1 | h1
          · exact Or.inr ⟨n % 10, by omega, h1⟩
          · exact Or.inl h1
        · exact Or.inr h

theorem toDigitsCore_foldl (fuel : ℕ) :
    ∀ (n acc : ℕ), n < fuel →
      (Nat.toDigitsCore 10 fuel n []).foldl (fun m c => 10 * m + (c.toNat - 48)) acc
        = acc * 10 ^ (Nat.toDigitsCore 10 fuel n []).length + n := by
  induction fuel with
  | zero => intro n acc h; omega
  | succ fuel ih =>
      intro n acc h
      simp only [Nat.toDigitsCore]
      by_cases h0 : n / 10 = 0
      · rw [if_pos h0]
        simp only [List.foldl_cons, List.foldl_nil, List.length_cons, List.length_nil]
        rw [digitChar_toNat (n % 10) (by omega)]
        norm_num
        omega
      · rw [if_neg h0]
        rw [toDigitsCore_append fuel (n / 10) [Nat.digitChar (n % 10)]]
        rw [List.foldl_append]
        have hn' : n / 10 < fuel := by omega
        rw [ih (n / 10) acc hn']
        simp only [List.foldl_cons, List.foldl_nil, List.length_append,
          List.length_cons, List.length_nil, Nat.zero_add]
        rw [digitChar_toNat (n % 10) (by omega)]
        have hL : ∀ L : ℕ,
            10 * (acc * 10 ^ L + n / 10) + n % 10 = acc * 10 ^ (L + 1) + n := by
          intro L
          rw [pow_succ]
          have h10 : 10 * (n / 10) + n % 10 = n := by omega
          calc 10 * (acc * 10 ^ L + n / 10) + n % 10
              = acc * (10 ^ L * 10) + (10 * (n / 10) + n % 10) := by ring
            _ = acc * (10 ^ L * 10) + n := by rw [h10]
        have := hL (Nat.toDigitsCore 10 fuel (n / 10) []).length
        omega

theorem toDigits_all_digit (n : ℕ) :
    (Nat.toDigits 10 n).all (fun c => c.isDigit) = true := by
  rw [List.all_eq_true]
  intro c hc
  rw [Nat.toDigits] at hc
  rcases toDigitsCore_mem (n + 1) n [] c hc with h | ⟨m, hm, he⟩
  · exact absurd h (List.not_mem_nil c)
  · rw [he]
    exact digitChar_isDigit m hm

theorem toDigits_ne_nil (n : ℕ) : Nat.toDigits 10 n ≠ [] := by
  rw [Nat.toDigits]
  simp only [Nat.toDigitsCore]
  by_cases h0 : n / 10 = 0
  · rw [if_pos h0]
    simp
  · rw [if_neg h0]
    rw [toDigitsCore_append]
    simp

theorem parseNat_toDigits (n : ℕ) : parseNat (Nat.toDigits 10 n) = some n := by
  rw [parseNat, if_neg (toDigits_ne_nil n), if_pos (toDigits_all_digit n)]
  congr 1
  rw [Nat.toDigits]
  rw [toDigitsCore_foldl (n + 1) n 0 (by omega)]
  simp

theorem toDigits_isDigit_mem (n : ℕ) (c : Char) (hc : c ∈ Nat.toDigits 10 n) :
    c.isDigit = true := by
  have h := toDigits_all_digit n
  rw [List.all_eq_true] at h
  exact h c hc

theorem toDigits_no_colon (n : ℕ) : ':' ∉ Nat.toDigits 10 n := by
  intro h
  exact absurd (toDigits_isDigit_mem n ':' h) (by decide)

theorem toDigits_no_comma (n : ℕ) : ',' ∉ Nat.toDigits 10 n := by
  intro h
  exact absurd (toDigits_isDigit_mem n ',' h) (by decide)

theorem runString_data (p : ℕ × ℕ) :
    (runString p).data = Nat.toDigits 10 p.1 ++ ':' :: Nat.toDigits 10 p.2 := by
  show ((toString p.1 ++ ":" ++ toString p.2)).data = _
  rw [String.data_append, String.data_append, List.append_assoc]
  rfl

theorem comma_not_mem_runString (p : ℕ × ℕ) : ',' ∉ (runString p).data := by
  rw [runString_data]
  intro h
  rcases List.mem_append.mp h with h1 | h1
  · exact toDigits_no_comma p.1 h1
  · rcases List.mem_cons.mp h1 with h2 | h2
    · exact absurd h2 (by decide)
    · exact toDigits_no_comma p.2 h2

theorem intercalate_go_data (s : String) (as : List String) :
    ∀ acc : String,
      (String.intercalate.go acc s as).data
        = acc.data ++ as.flatMap (fun a => s.data ++ a.data) := by
  induction as with
  | nil => intro acc; simp [String.intercalate.go]
  | cons a as ih =>
      intro acc
      rw [String.intercalate.go, ih]
      simp [String.data_append]

theorem rleString_data (a : List ℕ) (r0 : ℕ × ℕ) (rest : List (ℕ × ℕ))
    (h : rleRuns a = r0 :: rest) :
    (rleString a).data
      = (runString r0).data
        ++ (rest.map (fun p => (runString p).data)).flatMap (fun d => ',' :: d) := by
  rw [rleString, h, List.map_cons]
  show (String.intercalate.go (runString r0) "," (rest.map runString)).data = _
  rw [intercalate_go_data]
  congr 1
  have hc : ("," : String).data = [','] := rfl
  simp [hc, List.flatMap_map]

theorem splitOnChar_not_mem (sep : Char) (l : List Char) (h : sep ∉ l) :
    splitOnChar sep l = [l] := by
  induction l with
  | nil => rfl
  | cons c rest ih =>
      have hc : ¬ c = sep := fun e => h (by rw [e]; exact List.mem_cons_self sep rest)
      have hrest : sep ∉ rest := fun e => h (List.mem_cons_of_mem c e)
      simp only [splitOnChar, ih hrest, if_neg hc]

theorem splitOnChar_ne_nil (sep : Char) (l : List Char) : splitOnChar sep l ≠ [] := by
  cases l with
  | nil => simp [splitOnChar]
  | cons c rest =>
      rcases hs : splitOnChar sep rest with _ | ⟨g, gs⟩
      · simp [splitOnChar, hs]
      · simp only [splitOnChar, hs]
        by_cases hc : c = sep
        · rw [if_pos hc]
          simp
        · rw [if_neg hc]
          simp

theorem splitOnChar_append (sep : Char) (l1 l2 : List Char) (h : sep ∉ l1) :
    splitOnChar sep (l1 ++ sep :: l2) = l1 :: splitOnChar sep l2 := by
  induction l1 with
  | nil =>
      simp only [List.nil_append]
      rcases hs : splitOnChar sep l2 with _ | ⟨g, gs⟩
      · exact absurd hs (splitOnChar_ne_nil sep l2)
      · simp [splitOnChar, hs]
  | cons c rest ih =>
      have hc : ¬ c = sep := fun e => h (by rw [e]; exact List.mem_cons_self sep rest)
      have hrest : sep ∉ rest := fun e => h (List.mem_cons_of_mem c e)
      have e1 : (c :: rest) ++ sep :: l2 = c :: (rest ++ sep :: l2) := rfl
      rw [e1, splitOnChar, ih hrest]
      show (if c = sep then [] :: rest :: splitOnChar sep l2
          else (c :: rest) :: splitOnChar sep l2) = (c :: rest) :: splitOnChar sep l2
      rw [if_neg hc]

theorem splitOnChar_join (sep : Char) (ps : List (List Char)) :
    ∀ p : List Char, sep ∉ p → (∀ q ∈ ps, sep ∉ q) →
      splitOnChar sep (p ++ ps.flatMap (fun q => sep :: q)) = p :: ps := by
  induction ps with
  | nil =>
      intro p hp _
      simp only [List.flatMap_nil, List.append_nil]
      rw [splitOnChar_not_mem sep p hp]
  | cons q ps ih =>
      intro p hp hq
      have h1 : p ++ (q :: ps).flatMap (fun r => sep :: r)
          = p ++ sep :: (q ++ ps.flatMap (fun r => sep :: r)) := by
        simp
      rw [h1, splitOnChar_append sep p _ hp,
        ih q (hq q (List.mem_cons_self q ps)) (fun r hr => hq r (List.mem_cons_of_mem q hr))]

theorem chunkPoints_append (l1 l2 : List ℕ) :
    ∀ i : ℕ, chunkPoints (l1 ++ l2) i = chunkPoints l1 i ++ chunkPoints l2 (i + l1.length) := by
  induction l1 with
  | nil => intro i; simp [chunkPoints]
  | cons v rest ih =>
      intro i
      have e1 : (v :: rest) ++ l2 = v :: (rest ++ l2) := rfl
      rw [e1, chunkPoints, chunkPoints, ih (i + 1), List.length_cons]
      have h : i + 1 + rest.length = i + (rest.length + 1) := by omega
      rw [h, List.append_assoc]

theorem chunkPoints_replicate (v cnt : ℕ) :
    ∀ idx : ℕ, chunkPoints (List.replicate cnt v) idx
      = if v ≠ 0 then
          (List.range cnt).map (fun (k : ℕ) =>
            (((((idx + k) % 32 : ℕ) : ℤ), ((((idx + k) / 32) % 32 : ℕ) : ℤ),
              ((((idx + k) / 1024) % 32 : ℕ) : ℤ)), v))
        else [] := by
  induction cnt with
  | zero => intro idx; simp [chunkPoints]
  | succ cnt ih =>
      intro idx
      rw [List.replicate_succ', chunkPoints_append, ih idx, List.length_replicate]
      by_cases hv : v ≠ 0
      · simp only [if_pos hv]
        rw [List.range_succ, List.map_append]
        simp [chunkPoints, hv]
      · simp only [if_neg hv]
        simp [chunkPoints, hv]

theorem plotDecodePart_run (idx : ℕ) (p : ℕ × ℕ) :
    plotDecodePart 0 0 0 idx (runString p).data
      = some (chunkPoints (List.replicate p.2 p.1) idx, idx + p.2) := by
  rw [runString_data]
  have hcolon : ':' ∈ Nat.toDigits 10 p.1 ++ ':' :: Nat.toDigits 10 p.2 :=
    List.mem_append_right _ (List.mem_cons_self _ _)
  simp only [plotDecodePart, if_pos hcolon,
    splitOnChar_append ':' _ _ (toDigits_no_colon p.1),
    splitOnChar_not_mem ':' _ (toDigits_no_colon p.2),
    parseNat_toDigits]
  rw [chunkPoints_replicate p.1 p.2 idx]
  norm_num

theorem plotDecodeParts_runs (runs : List (ℕ × ℕ)) :
    ∀ idx : ℕ, plotDecodeParts 0 0 0 (runs.map (fun p => (runString p).data)) idx
      = some (chunkPoints (runExpand runs) idx) := by
  induction runs with
  | nil => intro idx; rfl
  | cons p rest ih =>
      intro idx
      rw [List.map_cons]
      simp only [plotDecodeParts, plotDecodePart_run idx p, ih (idx + p.2)]
      rw [runExpand, chunkPoints_append]
      simp

theorem chunkCoord_inj (i s : ℕ) (hi : i < 32768) (hs : s < 32768)
    (h : ((((i % 32 : ℕ) : ℤ)), (((i / 32) % 32 : ℕ) : ℤ), (((i / 1024) % 32 : ℕ) : ℤ))
       = (((((s % 32 : ℕ) : ℤ)), (((s / 32) % 32 : ℕ) : ℤ),
           (((s / 1024) % 32 : ℕ) : ℤ)) : Coord3)) : i = s := by
  simp only [Prod.mk.injEq] at h
  omega

theorem dictGet_chunkPoints (a : List ℕ) :
    ∀ (s i : ℕ), s + a.length ≤ 32768 → i < 32768 →
      dictGet (chunkPoints a s)
          ((((i % 32 : ℕ) : ℤ)), (((i / 32) % 32 : ℕ) : ℤ), (((i / 1024) % 32 : ℕ) : ℤ))
        = if s ≤ i ∧ i < s + a.length ∧ a.getD (i - s) 0 ≠ 0
          then some (a.getD (i - s) 0) else none := by
  induction a with
  | nil =>
      intro s i hs hi
      rw [if_neg (by simp)]
      rfl
  | cons v rest ih =>
      intro s i hs hi
      have hs' : s + 1 + rest.length ≤ 32768 := by
        simp only [List.length_cons] at hs
        omega
      have hgd : s + 1 ≤ i → (v :: rest).getD (i - s) 0 = rest.getD (i - (s + 1)) 0 := by
        intro hsi
        have h1 : i - s = (i - (s + 1)) + 1 := by omega
        rw [h1, List.getD_cons_succ]
      simp only [chunkPoints]
      by_cases hv : v ≠ 0
      · simp only [if_pos hv, List.singleton_append, dictGet]
        by_cases he : i = s
        · subst he
          rw [if_pos rfl]
          rw [if_pos ⟨Nat.le_refl i, by simp only [List.length_cons]; omega,
            by rw [Nat.sub_self, List.getD_cons_zero]; exact hv⟩]
          rw [Nat.sub_self, List.getD_cons_zero]
        · have hkey : ¬ (((((s % 32 : ℕ) : ℤ)), (((s / 32) % 32 : ℕ) : ℤ),
              (((s / 1024) % 32 : ℕ) : ℤ)) : Coord3)
              = ((((i % 32 : ℕ) : ℤ)), (((i / 32) % 32 : ℕ) : ℤ),
                 (((i / 1024) % 32 : ℕ) : ℤ)) :=
            fun e => he (chunkCoord_inj s i (by omega) hi e).symm
          rw [if_neg hkey, ih (s + 1) i hs' hi]
          by_cases hcond : s + 1 ≤ i ∧ i < s + 1 + rest.length
              ∧ rest.getD (i - (s + 1)) 0 ≠ 0
          · rw [if_pos hcond]
            rw [if_pos ⟨by omega, by simp only [List.length_cons]; omega,
              by rw [hgd hcond.1]; exact hcond.2.2⟩]
            rw [hgd hcond.1]
          · rw [if_neg hcond]
            rw [if_neg (fun hcon => hcond ⟨by omega,
              by have h2 := hcon.2.1; simp only [List.length_cons] at h2; omega,
              by rw [← hgd (by omega)]; exact hcon.2.2⟩)]
      · simp only [if_neg hv, List.nil_append]
        have hv0 : v = 0 := by omega
        rw [ih (s + 1) i hs' hi]
        by_cases hcond : s + 1 ≤ i ∧ i < s + 1 + rest.length
            ∧ rest.getD (i - (s + 1)) 0 ≠ 0
        · rw [if_pos hcond]
          rw [if_pos ⟨by omega, by simp only [List.length_cons]; omega,
            by rw [hgd hcond.1]; exact hcond.2.2⟩]
          rw [hgd hcond.1]
        · rw [if_neg hcond]
          rw [if_neg (fun hcon => by
            by_cases he : i = s
            · have hz : (v :: rest).getD (i - s) 0 = v := by
                rw [he, Nat.sub_self, List.getD_cons_zero]
              exact hcon.2.2 (by rw [hz, hv0])
            · exact hcond ⟨by omega,
                by have h2 := hcon.2.1; simp only [List.length_cons] at h2; omega,
                by rw [← hgd (by omega)]; exact hcon.2.2⟩)]

theorem assembleChunk_chunkPoints (a : List ℕ) (ha : a.length = CHUNK_VOL) :
    assembleChunk (chunkPoints a 0) = a := by
  apply List.ext_getElem
  · simp [assembleChunk, ha]
  · intro i h1 h2
    simp only [assembleChunk, List.getElem_map, List.getElem_range]
    have hi : i < 32768 := by
      rw [ha, CHUNK_VOL_eq] at h2
      exact h2
    rw [dictGet_chunkPoints a 0 i (by rw [ha, CHUNK_VOL_eq]) hi]
    rw [getElem_eq_getD h2]
    by_cases hz : a.getD (i - 0) 0 ≠ 0
    · rw [if_pos ⟨Nat.zero_le i, by omega, hz⟩]
      simp
    · rw [if_neg (fun hcon => hz hcon.2.2)]
      rw [not_ne_iff] at hz
      simp only [Nat.sub_zero] at hz
      rw [hz]

theorem plotDecode_rleString (a : List ℕ) (h : a ≠ []) :
    plotDecode 0 0 0 (rleString a) = some (chunkPoints a 0) := by
  obtain ⟨r0, rrest, hruns⟩ := List.exists_cons_of_ne_nil (rleRuns_ne_nil a h)
  rw [plotDecode, rleString_data a r0 rrest hruns]
  rw [splitOnChar_join ',' (rrest.map (fun p => (runString p).data)) (runString r0).data
    (comma_not_mem_runString r0)
    (by intro q hq
        obtain ⟨p, hp, he⟩ := List.mem_map.mp hq
        rw [← he]
        exact comma_not_mem_runString p)]
  have hmap : (runString r0).data :: rrest.map (fun p => (runString p).data)
      = (r0 :: rrest).map (fun p => (runString p).data) := by
    rw [List.map_cons]
  rw [hmap, plotDecodeParts_runs (r0 :: rrest) 0, ← hruns, runExpand_rleRuns a h]

/-- C2: the RLE encoding emits value:runLength pairs comma-separated in linear
storage order and is total (the all-empty chunk encodes to the single run
"0:32768"), and the decoder of src/tools/verify_pipeline_visual.py
reconstructs the exact original array: decoding the encoded string of any
chunk array of CHUNK_SIZE ** 3 entries succeeds, and reassembling the decoded
points over the air background returns the original array. -/
theorem C2_rle_roundtrip :
    (∀ a : List ℕ, a.length = CHUNK_VOL →
      (plotDecode 0 0 0 (rleString a)).map assembleChunk = some a)
    ∧ rleString (List.replicate CHUNK_VOL 0) = "0:32768" := by
  constructor
  · intro a ha
    have hne : a ≠ [] := by
      intro e
      rw [e] at ha
      norm_num [CHUNK_VOL, CHUNK_SIZE] at ha
    rw [plotDecode_rleString a hne, Option.map_some', assembleChunk_chunkPoints a ha]
  · rw [rleString_replicate 0 CHUNK_VOL (by norm_num [CHUNK_VOL, CHUNK_SIZE])]
    rfl

/-- Witness for C2_rle_roundtrip: the round-trip applied to the concrete
all-empty chunk of 32768 entries. -/
theorem C2_rle_roundtrip_witness :
    (plotDecode 0 0 0 (rleString (List.replicate CHUNK_VOL 0))).map assembleChunk
      = some (List.replicate CHUNK_VOL 0) :=
  C2_rle_roundtrip.1 (List.replicate CHUNK_VOL 0) (by simp)
